import Mathlib

/-!
# Superpermutations: construction (`Find`) and verification (`Check`)

A shallow embedding of `superpermutations.go`.

* A Go string is the list of its bytes, each a natural number below 256. A rune
  is the natural number of its code point. `Find` takes `len(value)` in bytes,
  decodes the string rune by rune as `range` does (`rangeRunes`, an invalid byte
  yields `U+FFFD` and advances one byte), works on a `[]rune` whose fresh
  entries are the zero rune, and returns the UTF-8 encoding of that slice
  (`encodeRunes`). `Check` works on `[]byte` throughout, so it is kept over an
  arbitrary symbol type.
* Go `int` values that are sums, products and quotients of non-negative values
  are natural numbers; every index expression that contains a subtraction is
  computed in `Int` and bounds-checked, so that an access outside the slice is
  a `Fault` exactly as it is a run-time panic in Go.
* All values stay below `2 ^ 63` for the inputs that pass the factorial table
  (see `superLength_lt_two_pow`), so 64-bit wrap-around never occurs.
* Goroutines are run one after the other in launch order.  The workers of
  `Check` write disjoint slots and only ever lower the shared `status` flag,
  so the result does not depend on the interleaving.
-/

namespace Superpermutations

/-- Run-time failures of the Go program. -/
inductive Fault where
  /-- The explicit `panic(fmt.Errorf("cannot compute factorial above %d", len(f)))`. -/
  | overflowError (bound : Nat)
  /-- An index or slice bound out of range. -/
  | indexOutOfRange
  /-- An integer division by zero. -/
  | divideByZero
  /-- A loop that does not leave through its guard. -/
  | nonTermination
  deriving DecidableEq, Repr

/-! ## Slice access -/

/-- Read `xs[i]`. -/
def readAt {β : Type} (xs : List β) (i : Int) : Except Fault β :=
  if i < 0 then .error .indexOutOfRange
  else match xs[i.toNat]? with
    | some v => .ok v
    | none => .error .indexOutOfRange

/-- Write `xs[i] = v`. -/
def writeAt {β : Type} (xs : List β) (i : Int) (v : β) : Except Fault (List β) :=
  if 0 ≤ i ∧ i < xs.length then .ok (xs.set i.toNat v) else .error .indexOutOfRange

/-- The slice expression `xs[lo:hi]`. -/
def sliceRange {β : Type} (xs : List β) (lo hi : Int) : Except Fault (List β) :=
  if 0 ≤ lo ∧ lo ≤ hi ∧ hi ≤ xs.length then .ok ((xs.drop lo.toNat).take (hi.toNat - lo.toNat))
  else .error .indexOutOfRange

/-! ## `factorial` -/

/-- The literal table `f` of `factorial`. -/
def factorialTable : List Nat :=
  [1, 1, 2, 6, 24, 120, 720, 5040, 40320, 362880, 3628800, 39916800, 479001600,
   6227020800, 87178291200, 1307674368000, 20922789888000, 355687428096000,
   6402373705728000, 121645100408832000, 2432902008176640000]

/-- Source function `factorial`: the guard compares with `len(f)`, then the table is indexed. -/
def factorial (a : Int) : Except Fault Nat :=
  if a > factorialTable.length then .error (.overflowError factorialTable.length)
  else readAt factorialTable a

/-! ## `splice` and `permutations` -/

/-- Source function `splice`: `input[:index]` followed by `input[index+1:]`.
Every call site passes an index below `len(input)`. -/
def splice {α : Type} (input : List α) (index : Nat) : List α :=
  input.take index ++ input.drop (index + 1)

/-- The recursion of `permutations`, on the length of the input: every recursive call
is on a `splice`, one element shorter. -/
def permutationsAux {α : Type} : Nat → List α → List (List α)
  | 0, input => if input.length = 1 then [input] else []
  | fuel + 1, input =>
    if input.length = 1 then [input]
    else input.enum.foldl
      (fun p ic => (permutationsAux fuel (splice input ic.1)).foldl
        (fun p s => p ++ [ic.2 :: s]) p) []

/-- Source function `permutations`. -/
def permutations {α : Type} (input : List α) : List (List α) :=
  permutationsAux input.length input

/-! ## `distribute` -/

/-- Source function `distribute`: the `(start, end)` pairs handed to the callback,
in launch order. -/
def distribute (count : Nat) : Except Fault (List (Nat × Nat)) :=
  let bucketCount := min 32 count
  if bucketCount = 0 then .error .divideByZero
  else
    let bucketSize := count / bucketCount
    let bucketDrop := count % bucketCount
    .ok ((List.range bucketCount).map fun i =>
      let start := i * bucketSize + min i bucketDrop
      let stop := start + bucketSize - 1
      (start, if i < bucketDrop then stop + 1 else stop))

/-! ## Strings and runes -/

/-- The replacement character `U+FFFD`, Go's `utf8.RuneError`. -/
def runeError : Nat := 0xFFFD

/-- Whether `b` is a UTF-8 continuation byte `0x80 .. 0xBF`. -/
def isCont (b : Nat) : Bool := 0x80 ≤ b && b ≤ 0xBF

/-- The first rune of a non-empty string and its width in bytes, as `range` and
`utf8.DecodeRuneInString` decode it: an invalid, overlong, surrogate or truncated
sequence yields `U+FFFD` with width 1. -/
def decodeRune : List Nat → Nat × Nat
  | [] => (runeError, 0)
  | b0 :: rest =>
    if b0 < 0x80 then (b0, 1)
    else if 0xC2 ≤ b0 ∧ b0 ≤ 0xDF then
      match rest with
      | b1 :: _ => if isCont b1 then (b0 % 32 * 64 + b1 % 64, 2) else (runeError, 1)
      | _ => (runeError, 1)
    else if 0xE0 ≤ b0 ∧ b0 ≤ 0xEF then
      match rest with
      | b1 :: b2 :: _ =>
        if (if b0 = 0xE0 then 0xA0 else 0x80) ≤ b1 ∧ b1 ≤ (if b0 = 0xED then 0x9F else 0xBF)
            ∧ isCont b2 then
          (b0 % 16 * 4096 + b1 % 64 * 64 + b2 % 64, 3)
        else (runeError, 1)
      | _ => (runeError, 1)
    else if 0xF0 ≤ b0 ∧ b0 ≤ 0xF4 then
      match rest with
      | b1 :: b2 :: b3 :: _ =>
        if (if b0 = 0xF0 then 0x90 else 0x80) ≤ b1 ∧ b1 ≤ (if b0 = 0xF4 then 0x8F else 0xBF)
            ∧ isCont b2 ∧ isCont b3 then
          (b0 % 8 * 262144 + b1 % 64 * 4096 + b2 % 64 * 64 + b3 % 64, 4)
        else (runeError, 1)
      | _ => (runeError, 1)
    else (runeError, 1)

/-- The iteration `for i, r := range s` from byte index `i` on, where `skip` bytes of
the rune decoded last are still to be passed over. -/
def rangeAux : Nat → Nat → List Nat → List (Nat × Nat)
  | _, _, [] => []
  | i, 0, b :: rest =>
    (i, (decodeRune (b :: rest)).1) :: rangeAux (i + 1) ((decodeRune (b :: rest)).2 - 1) rest
  | i, skip + 1, _ :: rest => rangeAux (i + 1) skip rest

/-- The pairs `(i, r)` of `for i, r := range s`: the byte index at which each rune
starts, and the rune. -/
def rangeRunes (s : List Nat) : List (Nat × Nat) :=
  rangeAux 0 0 s

/-- The UTF-8 encoding of one rune, as `string(rune)` gives it: surrogates and values
above `U+10FFFF` become `U+FFFD`. -/
def encodeRune (r : Nat) : List Nat :=
  if r < 0x80 then [r]
  else if r < 0x800 then [0xC0 + r / 64, 0x80 + r % 64]
  else if (0xD800 ≤ r ∧ r ≤ 0xDFFF) ∨ 0x10FFFF < r then [0xEF, 0xBF, 0xBD]
  else if r < 0x10000 then [0xE0 + r / 4096, 0x80 + r / 64 % 64, 0x80 + r % 64]
  else [0xF0 + r / 262144, 0x80 + r / 4096 % 64, 0x80 + r / 64 % 64, 0x80 + r % 64]

/-- The conversion `string(out)` of a rune slice. -/
def encodeRunes (out : List Nat) : List Nat :=
  out.flatMap encodeRune

/-! ## `Find` -/

/-- The loop `for j := initial; j < shifts; j += interval { sequence[j]++ }`. -/
def markLoop (interval shifts : Int) : Nat → Int → List Nat → Except Fault (List Nat)
  | 0, _, _ => .error .nonTermination
  | fuel + 1, j, sequence =>
    if j < shifts then do
      let v ← readAt sequence j
      let sequence ← writeAt sequence j (v + 1)
      markLoop interval shifts fuel (j + interval) sequence
    else .ok sequence

/-- The shift sequence of `Find`: lines 14 to 23. -/
def shiftSequence (length shifts : Nat) : Except Fault (List Nat) :=
  (List.range' 2 (length - 1)).foldlM
    (fun sequence (i : Nat) => do
      let fi ← factorial (i : Int)
      let initial : Int := Int.tdiv (2 * ((shifts : Int) - 1)) fi
      let interval := initial + 1
      markLoop interval shifts (shifts + 1) initial sequence)
    (List.replicate shifts 0)

/-- The output length of `Find`: lines 26 to 29. -/
def outputLength (length : Nat) : Except Fault Nat :=
  (List.range' 1 length).foldlM (fun outlen (i : Nat) => do
    let fi ← factorial (i : Int)
    pure (outlen + fi)) 0

/-- Seeding of the output of `Find`: lines 33 to 36, for the pairs `(i, r)` that
`range value` yields. -/
def seed {α : Type} (runes : List (Nat × α)) (outlen : Nat) (out : List α) :
    Except Fault (List α) :=
  runes.foldlM (fun out ir => do
    let out ← writeAt out (ir.1 : Int) ir.2
    writeAt out ((outlen : Int) - ir.1 - 1) ir.2) out

/-- The inner loop of `Find` for one shift entry: lines 41 to 44. -/
def copyShift {α : Type} (length outlen cur inc : Nat) (out : List α) : Except Fault (List α) :=
  (List.range inc).foldlM (fun out (i : Nat) => do
    let v ← readAt out ((cur : Int) - length + i)
    let out ← writeAt out ((cur : Int) + inc - i - 1) v
    let v ← readAt out ((cur : Int) - length + i)
    writeAt out ((outlen : Int) - cur - inc + i) v) out

/-- The walk over the shift sequence in `Find`: lines 39 to 46. -/
def walkShifts {α : Type} (length outlen : Nat) (sequence : List Nat) (cur : Nat) (out : List α) :
    Except Fault (Nat × List α) :=
  sequence.foldlM (fun st inc => do
    let out ← copyShift length outlen st.1 inc st.2
    pure (st.1 + inc, out)) (cur, out)

/-- The `[]rune` that `Find` builds: lines 12 to 46. -/
def findRunes (value : List Nat) : Except Fault (List Nat) := do
  let length := value.length
  let shifts := (← factorial (length : Int)) / 2
  let sequence ← shiftSequence length shifts
  let outlen ← outputLength length
  let out : List Nat := List.replicate outlen 0
  let out ← seed (rangeRunes value) outlen out
  let st ← walkShifts length outlen sequence length out
  pure st.2

/-- Source function `Find`: the rune slice, converted by `string(out)`. -/
def Find (value : List Nat) : Except Fault (List Nat) := do
  let out ← findRunes value
  pure (encodeRunes out)

/-! ## `Check` -/

/-- Whether `len(index.Lookup(p, 1)) != 0` for the suffix-array index over `data`: the
library returns no position when `p` is empty or does not occur in `data`. -/
def lookupHit {α : Type} [DecidableEq α] (data p : List α) : Bool :=
  !p.isEmpty && data.tails.any (fun t => p.isPrefixOf t)

/-- One permutation worker of `Check`, the callback at lines 59 to 64. -/
def permWorker {α : Type} (input : List α) (ps : List (List α)) (current : Nat) :
    Except Fault (List (List α)) := do
  let f ← factorial ((input.length : Int) - 1)
  let inc := current * f
  (permutations (splice input current)).enum.foldlM (fun ps ip => do
    let c ← readAt input current
    writeAt ps ((inc : Int) + ip.1) (c :: ip.2)) ps

/-- One verification bucket of `Check`, the callback at lines 76 to 82: it walks
`ps[start:end]` and lowers the shared `status` at every permutation without a hit. -/
def verifyBucket {α : Type} [DecidableEq α] (data : List α) (ps : List (List α))
    (start stop : Nat) (status : Bool) : Except Fault Bool := do
  let slice ← sliceRange ps (start : Int) (stop : Int)
  pure (slice.foldl (fun status p => if lookupHit data p then status else false) status)

/-- Source function `Check`. -/
def Check {α : Type} [DecidableEq α] (input superpermutation : List α) : Except Fault Bool := do
  let length := input.length
  let ps : List (List α) := List.replicate (← factorial (length : Int)) []
  let workers ← distribute length
  let ps ← workers.foldlM (fun ps b => permWorker input ps b.1) ps
  let buckets ← distribute ps.length
  buckets.foldlM (fun status b => verifyBucket superpermutation ps b.1 b.2 status) true

/-- First index of bucket `i`, as computed in the loop body of `distribute`. -/
def bucketStart (count i : Nat) : Nat :=
  i * (count / min 32 count) + min i (count % min 32 count)

/-- Last index of bucket `i`, as computed in the loop body of `distribute`. -/
def bucketStop (count i : Nat) : Nat :=
  if i < count % min 32 count then bucketStart count i + count / min 32 count - 1 + 1
  else bucketStart count i + count / min 32 count - 1

/-! ## The construction in closed form -/

/-- Number of block sizes `i` in `2 .. n` whose interval `n! / i!` divides `k`: the
shift entry that `Find` computes for the transition into window `k`. -/
def shiftCount (n k : Nat) : Nat :=
  (List.range' 2 (n - 1)).countP (fun i => n.factorial / i.factorial ∣ k)

/-- Window number `k` of the construction, for the symbols listed last first: the window
of the symbols `rest` numbered `k / n`, extended by `x` and rotated `k % n` places. -/
def walkRev {α : Type} : List α → Nat → List α
  | [], _ => []
  | x :: rest, k =>
    (walkRev rest (k / (rest.length + 1))).drop (k % (rest.length + 1))
      ++ x :: (walkRev rest (k / (rest.length + 1))).take (k % (rest.length + 1))

/-- Window number `k` of the construction on `value`. -/
def window {α : Type} (value : List α) (k : Nat) : List α :=
  walkRev value.reverse k

/-- One transition of weight `w`: drop the first `w` symbols and append them reversed. -/
def shiftWindow {α : Type} (p : List α) (w : Nat) : List α :=
  p.drop w ++ (p.take w).reverse

/-- The shift sequence in closed form: entry `j` is `shiftCount n (j + 1)`. -/
def shiftList (n : Nat) : List Nat :=
  (List.range' 1 (n.factorial / 2)).map (shiftCount n)

/-- The sum `1! + 2! + ... + n!`. -/
def superLength (n : Nat) : Nat :=
  ((List.range' 1 n).map Nat.factorial).sum

/-- The slice reads the same from both ends. -/
def Mirrored {α : Type} (out : List α) : Prop :=
  ∀ x, x < out.length → out[x]? = out[out.length - 1 - x]?

/-- State of the walk of `Find` after `t` shift entries: the output has its final length
and reads the same from both ends, window `t` sits just before the cursor, and every
earlier window sits somewhere before it. -/
structure WalkInv {α : Type} (value : List α) (L t cur : Nat) (out : List α) : Prop where
  length_eq : out.length = L
  mirrored : Mirrored out
  le_cur : value.length ≤ cur
  cur_le : cur ≤ L
  earlier : ∀ s, s ≤ t → ∃ c, value.length ≤ c ∧ c ≤ cur ∧
    ∀ x, x < value.length → out[c - value.length + x]? = (window value s)[x]?
  current : ∀ x, x < value.length → out[cur - value.length + x]? = (window value t)[x]?

/-! # Properties -/

/-! ## `distribute` partitions its count -/

theorem distribute_eq (count : Nat) (h : 1 ≤ count) :
    distribute count =
      .ok ((List.range (min 32 count)).map fun i => (bucketStart count i, bucketStop count i)) := by
  have hb : min 32 count ≠ 0 := by omega
  simp only [distribute, hb, if_false]
  rfl

theorem bucketSize_pos (count : Nat) (h : 1 ≤ count) : 1 ≤ count / min 32 count := by
  have hb : 0 < min 32 count := by omega
  exact (Nat.one_le_div_iff hb).2 (Nat.min_le_right _ _)

theorem bucketStart_zero (count : Nat) : bucketStart count 0 = 0 := by
  simp [bucketStart]

theorem bucketStart_succ (count i : Nat) (h : 1 ≤ count) :
    bucketStart count (i + 1) = bucketStop count i + 1 := by
  have hs := bucketSize_pos count h
  simp only [bucketStart, bucketStop, Nat.succ_mul]
  split <;> omega

theorem bucketStart_last (count : Nat) (h : 1 ≤ count) :
    bucketStart count (min 32 count) = count := by
  have hb : 0 < min 32 count := by omega
  have hm := Nat.mod_lt count hb
  have hd := Nat.div_add_mod count (min 32 count)
  simp only [bucketStart]
  rw [Nat.min_eq_right (Nat.le_of_lt hm)]
  exact hd

theorem bucketStart_le_stop (count i : Nat) (h : 1 ≤ count) :
    bucketStart count i ≤ bucketStop count i := by
  have hs := bucketSize_pos count h
  simp only [bucketStop]
  split <;> omega

theorem bucketStart_mono (count : Nat) (h : 1 ≤ count) {i j : Nat} (hij : i ≤ j) :
    bucketStart count i ≤ bucketStart count j := by
  induction j with
  | zero => simp_all
  | succ j ih =>
    rcases Nat.eq_or_lt_of_le hij with rfl | hlt
    · exact Nat.le_refl _
    · have := ih (Nat.le_of_lt_succ hlt)
      have h1 := bucketStart_succ count j h
      have h2 := bucketStart_le_stop count j h
      omega

theorem bucket_cover (count : Nat) (h : 1 ≤ count) (x : Nat) :
    ∀ i, x < bucketStart count i → ∃ j, j < i ∧ bucketStart count j ≤ x ∧ x ≤ bucketStop count j := by
  intro i
  induction i with
  | zero => intro hx; simp [bucketStart_zero] at hx
  | succ i ih =>
    intro hx
    by_cases hlt : x < bucketStart count i
    · obtain ⟨j, hj, hj2⟩ := ih hlt
      exact ⟨j, by omega, hj2⟩
    · refine ⟨i, by omega, by omega, ?_⟩
      have := bucketStart_succ count i h
      omega

theorem bucket_disjoint (count : Nat) (h : 1 ≤ count) {i j x : Nat}
    (hi : bucketStart count i ≤ x ∧ x ≤ bucketStop count i)
    (hj : bucketStart count j ≤ x ∧ x ≤ bucketStop count j) : i = j := by
  by_contra hne
  rcases Nat.lt_or_gt_of_ne hne with hlt | hlt
  · have h1 := bucketStart_succ count i h
    have h2 := bucketStart_mono count h (show _ + 1 ≤ _ from hlt)
    omega
  · have h1 := bucketStart_succ count j h
    have h2 := bucketStart_mono count h (show _ + 1 ≤ _ from hlt)
    omega

theorem distribute_getElem? (count : Nat) (h : 1 ≤ count) (buckets : List (Nat × Nat))
    (hb : distribute count = .ok buckets) (i : Nat) (b : Nat × Nat) :
    buckets[i]? = some b ↔ i < min 32 count ∧ b = (bucketStart count i, bucketStop count i) := by
  rw [distribute_eq count h] at hb
  injection hb with hb
  subst hb
  simp only [List.getElem?_map, List.getElem?_range, Option.map_eq_some']
  constructor
  · rintro ⟨a, ha, rfl⟩
    rw [List.getElem?_eq_some_iff] at ha
    obtain ⟨hlt, ha⟩ := ha
    simp at hlt ha
    subst ha
    exact ⟨by omega, rfl⟩
  · rintro ⟨hlt, rfl⟩
    exact ⟨i, by simp [hlt], rfl⟩

/-- C9: for `count ≥ 1` the inclusive ranges handed to the callback partition
`[0, count)`: every index lies in exactly one bucket, no bucket reaches outside,
bucket 0 starts at 0, each next bucket starts one past the previous end, and the
last bucket ends at `count - 1`. -/
theorem distribute_partitions (count : Nat) (h : 1 ≤ count) :
    ∃ buckets, distribute count = .ok buckets ∧
      (∀ x, x < count → ∃! i : Nat, ∃ b : Nat × Nat, buckets[i]? = some b ∧ b.1 ≤ x ∧ x ≤ b.2) ∧
      (∀ b ∈ buckets, ∀ x, b.1 ≤ x → x ≤ b.2 → x < count) ∧
      (∃ b : Nat × Nat, buckets[0]? = some b ∧ b.1 = 0) ∧
      (∀ i b c, buckets[i]? = some b → buckets[i + 1]? = some c → c.1 = b.2 + 1) ∧
      (∃ b : Nat × Nat, buckets[buckets.length - 1]? = some b ∧ b.2 = count - 1) := by
  refine ⟨_, distribute_eq count h, ?_⟩
  have key := distribute_getElem? count h _ (distribute_eq count h)
  have hlen : ((List.range (min 32 count)).map
      fun i => (bucketStart count i, bucketStop count i)).length = min 32 count := by simp
  have hpos : 0 < min 32 count := by omega
  refine ⟨?_, ?_, ?_, ?_, ?_⟩
  · intro x hx
    obtain ⟨j, hj, hj1, hj2⟩ := bucket_cover count h x (min 32 count)
      (by rw [bucketStart_last count h]; exact hx)
    refine ⟨j, ⟨_, (key j _).2 ⟨hj, rfl⟩, hj1, hj2⟩, ?_⟩
    rintro i ⟨b, hb, hb1, hb2⟩
    obtain ⟨_, rfl⟩ := (key i b).1 hb
    exact bucket_disjoint count h ⟨hb1, hb2⟩ ⟨hj1, hj2⟩
  · intro b hb x _ hx2
    obtain ⟨i, hi⟩ := List.getElem?_of_mem hb
    obtain ⟨hlt, rfl⟩ := (key i b).1 hi
    have h1 := bucketStart_succ count i h
    have h2 := bucketStart_mono count h (show _ + 1 ≤ _ from hlt)
    have h3 := bucketStart_last count h
    simp only at hx2
    omega
  · exact ⟨_, (key 0 _).2 ⟨hpos, rfl⟩, bucketStart_zero count⟩
  · intro i b c hb hc
    obtain ⟨_, rfl⟩ := (key i b).1 hb
    obtain ⟨_, rfl⟩ := (key (i + 1) c).1 hc
    exact bucketStart_succ count i h
  · rw [hlen]
    refine ⟨_, (key (min 32 count - 1) _).2 ⟨by omega, rfl⟩, ?_⟩
    have h1 := bucketStart_succ count (min 32 count - 1) h
    have h3 := bucketStart_last count h
    have : min 32 count - 1 + 1 = min 32 count := by omega
    rw [this] at h1
    simp only
    omega

theorem distribute_partitions_witness :
    ∃ buckets, distribute 70 = .ok buckets ∧
      (∀ x, x < 70 → ∃! i : Nat, ∃ b : Nat × Nat, buckets[i]? = some b ∧ b.1 ≤ x ∧ x ≤ b.2) ∧
      (∀ b ∈ buckets, ∀ x, b.1 ≤ x → x ≤ b.2 → x < 70) ∧
      (∃ b : Nat × Nat, buckets[0]? = some b ∧ b.1 = 0) ∧
      (∀ i b c, buckets[i]? = some b → buckets[i + 1]? = some c → c.1 = b.2 + 1) ∧
      (∃ b : Nat × Nat, buckets[buckets.length - 1]? = some b ∧ b.2 = 70 - 1) :=
  distribute_partitions 70 (by decide)

/-- C10: for `count ≥ 1` the callback is invoked `min 32 count` times, bucket `i`
has `count / bucketCount` indices, plus one exactly when `i < count % bucketCount`. -/
theorem distribute_balanced (count : Nat) (h : 1 ≤ count) :
    ∃ buckets, distribute count = .ok buckets ∧
      buckets.length = min 32 count ∧
      ∀ i b, buckets[i]? = some b →
        (b.2 + 1 - b.1 = count / min 32 count ∨ b.2 + 1 - b.1 = count / min 32 count + 1) ∧
        (b.2 + 1 - b.1 = count / min 32 count + 1 ↔ i < count % min 32 count) ∧
        b.1 ≤ b.2 := by
  refine ⟨_, distribute_eq count h, by simp, ?_⟩
  intro i b hb
  obtain ⟨_, rfl⟩ := (distribute_getElem? count h _ (distribute_eq count h) i b).1 hb
  have hs := bucketSize_pos count h
  simp only [bucketStop]
  split <;> omega

theorem distribute_balanced_witness :
    ∃ buckets, distribute 70 = .ok buckets ∧
      buckets.length = min 32 70 ∧
      ∀ i b, buckets[i]? = some b →
        (b.2 + 1 - b.1 = 70 / min 32 70 ∨ b.2 + 1 - b.1 = 70 / min 32 70 + 1) ∧
        (b.2 + 1 - b.1 = 70 / min 32 70 + 1 ↔ i < 70 % min 32 70) ∧
        b.1 ≤ b.2 :=
  distribute_balanced 70 (by decide)

/-! ## `permutations` -/

section Permutations
variable {α : Type}

theorem foldl_snoc_map {β γ : Type} (f : β → γ) (xs : List β) (p : List γ) :
    xs.foldl (fun p s => p ++ [f s]) p = p ++ xs.map f := by
  induction xs generalizing p with
  | nil => simp
  | cons x xs ih => simp [ih]

theorem foldl_foldl_snoc {β γ δ : Type} (g : β → List γ) (f : β → γ → δ) (l : List β)
    (p : List δ) :
    l.foldl (fun p x => (g x).foldl (fun p s => p ++ [f x s]) p) p
      = p ++ l.flatMap (fun x => (g x).map (f x)) := by
  induction l generalizing p with
  | nil => simp
  | cons x l ih =>
    simp only [List.foldl_cons, List.flatMap_cons]
    rw [ih, foldl_snoc_map, List.append_assoc]

theorem permutationsAux_succ (fuel : Nat) (input : List α) (h : input.length ≠ 1) :
    permutationsAux (fuel + 1) input
      = input.enum.flatMap (fun ic => (permutationsAux fuel (splice input ic.1)).map (ic.2 :: ·)) := by
  simp only [permutationsAux, h, if_false]
  rw [foldl_foldl_snoc (fun ic : Nat × α => permutationsAux fuel (splice input ic.1))
    (fun ic s => ic.2 :: s)]
  simp

theorem permutationsAux_one (fuel : Nat) (input : List α) (h : input.length = 1) :
    permutationsAux fuel input = [input] := by
  cases fuel <;> simp [permutationsAux, h]

theorem splice_length (input : List α) (i : Nat) (h : i < input.length) :
    (splice input i).length = input.length - 1 := by
  simp [splice]; omega

theorem splice_perm (input : List α) (i : Nat) (c : α) (h : input[i]? = some c) :
    List.Perm (c :: splice input i) input := by
  induction input generalizing i with
  | nil => simp at h
  | cons a t ih =>
    cases i with
    | zero =>
      simp at h
      subst h
      simp [splice]
    | succ i =>
      simp at h
      have := ih i h
      simp only [splice, List.take_succ_cons, List.drop_succ_cons, List.cons_append] at this ⊢
      exact (List.Perm.swap a c _).trans (this.cons a)

theorem mem_permutationsAux (fuel : Nat) :
    ∀ (input p : List α), input.length = fuel + 1 →
      (p ∈ permutationsAux (fuel + 1) input ↔ List.Perm p input) := by
  induction fuel with
  | zero =>
    intro input p h
    rw [permutationsAux_one _ _ h]
    obtain ⟨a, rfl⟩ := List.length_eq_one.1 h
    simp
  | succ fuel ih =>
    intro input p h
    rw [permutationsAux_succ _ _ (by omega)]
    simp only [List.mem_flatMap, List.mem_map, Prod.exists]
    constructor
    · rintro ⟨i, c, hic, s, hs, rfl⟩
      rw [List.mk_mem_enum_iff_getElem?] at hic
      have hi : i < input.length := (List.getElem?_eq_some_iff.1 hic).1
      rw [ih _ _ (by rw [splice_length _ _ hi]; omega)] at hs
      exact (hs.cons c).trans (splice_perm input i c hic)
    · intro hp
      cases p with
      | nil => have := hp.length_eq; simp [h] at this
      | cons c s =>
        have hc : c ∈ input := hp.subset (List.mem_cons_self _ _)
        obtain ⟨i, hi, hic⟩ := List.getElem_of_mem hc
        have hic2 : input[i]? = some c := by rw [List.getElem?_eq_getElem hi, hic]
        refine ⟨i, c, List.mk_mem_enum_iff_getElem?.2 hic2, s, ?_, rfl⟩
        rw [ih _ _ (by rw [splice_length _ _ hi]; omega)]
        exact (List.perm_cons c).1 (hp.trans (splice_perm input i c hic2).symm)

theorem nodup_permutationsAux (fuel : Nat) :
    ∀ (input : List α), input.length = fuel + 1 → input.Nodup →
      (permutationsAux (fuel + 1) input).Nodup := by
  induction fuel with
  | zero =>
    intro input h _
    rw [permutationsAux_one _ _ h]
    simp
  | succ fuel ih =>
    intro input h hnd
    rw [permutationsAux_succ _ _ (by omega), List.nodup_flatMap]
    constructor
    · rintro ⟨i, c⟩ hic
      rw [List.mk_mem_enum_iff_getElem?] at hic
      have hi : i < input.length := (List.getElem?_eq_some_iff.1 hic).1
      have hs : (splice input i).Nodup :=
        (List.nodup_cons.1 ((splice_perm input i c hic).nodup_iff.2 hnd)).2
      exact (ih _ (by rw [splice_length _ _ hi]; omega) hs).map (List.cons_injective)
    · have hp : List.Pairwise (fun a b : Nat × α => a.2 ≠ b.2) input.enum := by
        rw [← List.pairwise_map, List.enum_map_snd]
        exact hnd
      refine hp.imp ?_
      intro a b hab p hpa hpb
      simp only [List.mem_map] at hpa hpb
      obtain ⟨s, _, rfl⟩ := hpa
      obtain ⟨t, _, ht⟩ := hpb
      exact hab (List.cons.inj ht).1.symm

theorem length_flatMap_const {β γ : Type} (l : List β) (f : β → List γ) (k : Nat)
    (h : ∀ x ∈ l, (f x).length = k) : (l.flatMap f).length = l.length * k := by
  induction l with
  | nil => simp
  | cons x l ih =>
    simp only [List.flatMap_cons, List.length_append, List.length_cons]
    rw [ih (fun y hy => h y (List.mem_cons_of_mem _ hy)), h x (List.mem_cons_self _ _)]
    ring

theorem length_permutationsAux (fuel : Nat) :
    ∀ (input : List α), input.length = fuel + 1 →
      (permutationsAux (fuel + 1) input).length = (fuel + 1).factorial := by
  induction fuel with
  | zero =>
    intro input h
    rw [permutationsAux_one _ _ h]
    simp
  | succ fuel ih =>
    intro input h
    rw [permutationsAux_succ _ _ (by omega),
      length_flatMap_const _ _ (fuel + 1).factorial]
    · rw [List.enum_length, h, Nat.factorial_succ (fuel + 1)]
    · rintro ⟨i, c⟩ hic
      rw [List.mk_mem_enum_iff_getElem?] at hic
      have hi : i < input.length := (List.getElem?_eq_some_iff.1 hic).1
      simp only [List.length_map]
      exact ih _ (by rw [splice_length _ _ hi]; omega)

theorem length_permutations (input : List α) (h : input ≠ []) :
    (permutations input).length = input.length.factorial := by
  obtain ⟨n, hn⟩ : ∃ n, input.length = n + 1 :=
    Nat.exists_eq_succ_of_ne_zero (by simpa using h)
  unfold permutations
  rw [hn]
  exact length_permutationsAux n input hn

theorem mem_permutations (input p : List α) (h : input ≠ []) :
    p ∈ permutations input ↔ List.Perm p input := by
  obtain ⟨n, hn⟩ : ∃ n, input.length = n + 1 :=
    Nat.exists_eq_succ_of_ne_zero (by simpa using h)
  unfold permutations
  rw [hn]
  exact mem_permutationsAux n input p hn

theorem nodup_permutations (input : List α) (h : input ≠ []) (hnd : input.Nodup) :
    (permutations input).Nodup := by
  obtain ⟨n, hn⟩ : ∃ n, input.length = n + 1 :=
    Nat.exists_eq_succ_of_ne_zero (by simpa using h)
  unfold permutations
  rw [hn]
  exact nodup_permutationsAux n input hn hnd

theorem factorial_eq (n : Nat) (h : n ≤ 20) : factorial (n : Int) = .ok n.factorial := by
  interval_cases n <;> rfl

/-- C7: for a non-empty sequence of pairwise distinct symbols, `permutations` lists every
ordering exactly once: each element is a reordering of `seq`, the elements are pairwise
distinct, and every reordering of `seq` is among them. -/
theorem permutations_complete (seq : List α) (hne : seq ≠ []) (hnd : seq.Nodup) :
    (∀ p ∈ permutations seq, List.Perm p seq) ∧ (permutations seq).Nodup ∧
      (∀ p, List.Perm p seq → p ∈ permutations seq) :=
  ⟨fun p hp => (mem_permutations seq p hne).1 hp, nodup_permutations seq hne hnd,
    fun p hp => (mem_permutations seq p hne).2 hp⟩

theorem permutations_complete_witness :
    ([1, 2, 3] : List Nat) ≠ [] ∧ ([1, 2, 3] : List Nat).Nodup ∧
    ((∀ p ∈ permutations [1, 2, 3], List.Perm p [1, 2, 3]) ∧ (permutations [1, 2, 3]).Nodup ∧
      (∀ p, List.Perm p [1, 2, 3] → p ∈ permutations [1, 2, 3])) :=
  ⟨by decide, by decide, permutations_complete [1, 2, 3] (by decide) (by decide)⟩

/-- C8, counterexample: on the empty sequence, which has length `0 ≤ 20`, `permutations`
returns no element, while `factorial 0` is `1`. -/
theorem permutations_nil_count :
    ([] : List Nat).length ≤ 20 ∧ (permutations ([] : List Nat)).length = 0 ∧
    factorial (([] : List Nat).length : Int) = .ok 1 ∧
    ¬ (factorial (([] : List Nat).length : Int) = .ok (permutations ([] : List Nat)).length) := by
  refine ⟨by decide, rfl, rfl, ?_⟩
  intro h
  have h0 : (Except.ok 1 : Except Fault Nat) = .ok 0 := h
  injection h0 with h1
  exact absurd h1 (by decide)

/-- C8, amended: for a sequence of 1 to 20 symbols, distinct or not, `permutations`
returns exactly `factorial (len s)` elements. -/
theorem permutations_count (s : List α) (h1 : 1 ≤ s.length) (h20 : s.length ≤ 20) :
    factorial s.length = .ok (permutations s).length := by
  rw [factorial_eq _ h20, length_permutations s (by rintro rfl; simp at h1)]

theorem permutations_count_witness :
    1 ≤ [7, 7, 8].length ∧ [7, 7, 8].length ≤ 20 ∧
      factorial [7, 7, 8].length = .ok (permutations [7, 7, 8]).length :=
  ⟨by decide, by decide, permutations_count [7, 7, 8] (by decide) (by decide)⟩

end Permutations

/-! ## The windows of the construction -/

section Windows
variable {α : Type}

theorem succ_div_mod (n k : Nat) (hn : 0 < n) :
    (k % n + 1 < n ∧ (k + 1) / n = k / n ∧ (k + 1) % n = k % n + 1) ∨
    (k % n + 1 = n ∧ (k + 1) / n = k / n + 1 ∧ (k + 1) % n = 0) := by
  have h1 := Nat.mod_lt k hn
  have h2 := Nat.div_add_mod k n
  rcases Nat.lt_or_ge (k % n + 1) n with h | h
  · left
    refine ⟨h, ?_⟩
    have := (Nat.div_mod_unique (a := k + 1) (d := k / n) (c := k % n + 1) hn).2
      ⟨by omega, h⟩
    exact this
  · right
    have he : k % n + 1 = n := by omega
    refine ⟨he, ?_⟩
    have := (Nat.div_mod_unique (a := k + 1) (d := k / n + 1) (c := 0) hn).2
      ⟨by rw [Nat.mul_add]; omega, hn⟩
    exact this

theorem shiftCount_zero (k : Nat) : shiftCount 0 k = 0 := by simp [shiftCount]

theorem shiftCount_one (k : Nat) : shiftCount 1 k = 0 := by simp [shiftCount]

theorem shiftCount_succ_succ (n k : Nat) :
    shiftCount (n + 2) k = 1 + if (n + 2) ∣ k then shiftCount (n + 1) (k / (n + 2)) else 0 := by
  have hr : List.range' 2 (n + 2 - 1) = List.range' 2 n ++ [n + 2] := by
    rw [show n + 2 - 1 = n + 1 from rfl, List.range'_concat]
    simp
    omega
  have hd : ∀ i ∈ List.range' 2 n,
      (n + 2).factorial / i.factorial = (n + 2) * ((n + 1).factorial / i.factorial) := by
    intro i hi
    rw [List.mem_range'_1] at hi
    rw [Nat.factorial_succ (n + 1)]
    exact Nat.mul_div_assoc _ (Nat.factorial_dvd_factorial (by omega))
  unfold shiftCount
  rw [hr, List.countP_append]
  have hlast : List.countP (fun i => decide ((n + 2).factorial / i.factorial ∣ k)) [n + 2] = 1 := by
    simp [Nat.div_self (Nat.factorial_pos _)]
  rw [hlast, Nat.add_comm]
  congr 1
  split
  · rename_i hk
    obtain ⟨c, rfl⟩ := hk
    rw [Nat.mul_div_cancel_left _ (by omega : 0 < n + 2), show n + 1 - 1 = n from rfl]
    apply List.countP_congr
    intro i hi
    rw [hd i hi]
    simp [Nat.mul_dvd_mul_iff_left (by omega : 0 < n + 2)]
  · rename_i hk
    rw [List.countP_eq_zero]
    intro i hi
    rw [hd i hi]
    simp only [decide_eq_true_eq]
    intro h
    exact hk (Dvd.dvd.trans (Dvd.intro _ rfl) h)

theorem length_walkRev (l : List α) (k : Nat) : (walkRev l k).length = l.length := by
  induction l generalizing k with
  | nil => simp [walkRev]
  | cons x rest ih =>
    have := Nat.mod_lt k (Nat.succ_pos rest.length)
    simp only [walkRev, List.length_append, List.length_drop, List.length_cons,
      List.length_take, ih]
    omega

theorem walkRev_succ (l : List α) (k : Nat) :
    walkRev l (k + 1) = shiftWindow (walkRev l k) (shiftCount l.length (k + 1)) := by
  induction l generalizing k with
  | nil => simp [walkRev, shiftWindow]
  | cons x rest ih =>
    rcases Nat.eq_zero_or_pos rest.length with h0 | hpos
    · have : rest = [] := List.length_eq_zero.1 h0
      subst this
      simp [walkRev, shiftWindow, shiftCount_one]
    · obtain ⟨m, hm⟩ : ∃ m, rest.length = m + 1 := ⟨rest.length - 1, by omega⟩
      have hlen : (x :: rest).length = m + 2 := by simp [hm]
      have e : m + 2 = rest.length + 1 := by omega
      rw [hlen, shiftCount_succ_succ, e, ← hm]
      simp only [walkRev]
      have hq := length_walkRev rest (k / (rest.length + 1))
      rcases succ_div_mod (rest.length + 1) k (Nat.succ_pos _) with ⟨h1, h2, h3⟩ | ⟨h1, h2, h3⟩
      · have hnd : ¬ (rest.length + 1 ∣ k + 1) := by
          rw [Nat.dvd_iff_mod_eq_zero, h3]
          omega
        rw [h2, h3, if_neg hnd]
        generalize walkRev rest (k / (rest.length + 1)) = q at hq ⊢
        generalize k % (rest.length + 1) = r at h1 ⊢
        have hr : r < q.length := by omega
        simp only [shiftWindow]
        rw [List.drop_eq_getElem_cons hr, List.take_succ, List.getElem?_eq_getElem hr]
        simp only [Nat.add_zero, List.cons_append, List.drop_succ_cons, List.drop_zero,
          List.take_succ_cons, List.take_zero, List.reverse_cons, List.reverse_nil,
          List.nil_append, Option.toList, List.append_assoc, List.singleton_append]
      · have hd : rest.length + 1 ∣ k + 1 := by
          rw [Nat.dvd_iff_mod_eq_zero, h3]
        rw [h2, h3, if_pos hd, ih]
        have hr : k % (rest.length + 1) = rest.length := by omega
        rw [hr]
        generalize walkRev rest (k / (rest.length + 1)) = q at hq ⊢
        generalize shiftCount rest.length (k / (rest.length + 1) + 1) = w
        rw [← hq]
        simp [shiftWindow, Nat.add_comm 1 w, List.take_succ_cons]

theorem exists_walkRev_of_perm (l : List α) :
    ∀ p : List α, List.Perm p l → ∃ k, k < l.length.factorial ∧ walkRev l k = p := by
  induction l with
  | nil =>
    intro p hp
    exact ⟨0, by simp, by simp [walkRev, List.perm_nil.1 hp]⟩
  | cons x rest ih =>
    intro p hp
    have hx : x ∈ p := hp.symm.subset (List.mem_cons_self _ _)
    obtain ⟨a, b, rfl⟩ := List.append_of_mem hx
    have hq : List.Perm (b ++ a) rest := by
      have h1 : List.Perm (x :: (b ++ a)) (a ++ x :: b) :=
        (List.perm_middle.trans (List.Perm.cons x List.perm_append_comm)).symm
      exact (List.perm_cons x).1 (h1.trans hp)
    obtain ⟨m, hm, hw⟩ := ih _ hq
    have hlen : b.length + a.length = rest.length := by
      have := hq.length_eq
      simpa using this
    have hb : b.length < rest.length + 1 := by omega
    refine ⟨(rest.length + 1) * m + b.length, ?_, ?_⟩
    · rw [List.length_cons, Nat.factorial_succ]
      calc (rest.length + 1) * m + b.length
          < (rest.length + 1) * m + (rest.length + 1) := by omega
        _ = (rest.length + 1) * (m + 1) := by ring
        _ ≤ (rest.length + 1) * rest.length.factorial :=
            Nat.mul_le_mul_left _ hm
    · have hdiv : ((rest.length + 1) * m + b.length) / (rest.length + 1) = m := by
        rw [Nat.mul_add_div (Nat.succ_pos _), Nat.div_eq_of_lt hb, Nat.add_zero]
      have hmod : ((rest.length + 1) * m + b.length) % (rest.length + 1) = b.length := by
        rw [Nat.mul_add_mod, Nat.mod_eq_of_lt hb]
      simp only [walkRev, hdiv, hmod, hw]
      simp

theorem rev_div_mod (n M k : Nat) (hn : 0 < n) (hk : k < n * M) :
    (n * M - 1 - k) / n = M - 1 - k / n ∧ (n * M - 1 - k) % n = n - 1 - k % n := by
  have h1 := Nat.mod_lt k hn
  have h2 := Nat.div_add_mod k n
  have h3 : k / n < M := Nat.div_lt_of_lt_mul hk
  apply (Nat.div_mod_unique hn).2
  refine ⟨?_, by omega⟩
  have h4 : n * (M - 1 - k / n) = n * M - n - n * (k / n) := by
    rw [Nat.mul_sub, Nat.mul_sub, Nat.mul_one]
  have h5 : n * (k / n + 1) ≤ n * M := Nat.mul_le_mul_left _ h3
  rw [Nat.mul_add, Nat.mul_one] at h5
  omega

theorem walkRev_reverse (l : List α) :
    ∀ k, k < l.length.factorial →
      (walkRev l k).reverse = walkRev l (l.length.factorial - 1 - k) := by
  induction l with
  | nil => intro k _; simp [walkRev]
  | cons x rest ih =>
    intro k hk
    rw [List.length_cons, Nat.factorial_succ] at hk ⊢
    obtain ⟨h1, h2⟩ := rev_div_mod (rest.length + 1) rest.length.factorial k (Nat.succ_pos _) hk
    have h3 : k / (rest.length + 1) < rest.length.factorial := Nat.div_lt_of_lt_mul hk
    have h4 := Nat.mod_lt k (Nat.succ_pos rest.length)
    simp only [walkRev]
    rw [h1, h2, ← ih _ h3]
    have hq := length_walkRev rest (k / (rest.length + 1))
    generalize walkRev rest (k / (rest.length + 1)) = q at hq ⊢
    generalize k % (rest.length + 1) = r at h4 ⊢
    have hr : r ≤ q.length := by omega
    rw [show rest.length + 1 - 1 - r = q.length - r by omega]
    rw [List.reverse_append, List.reverse_cons, List.append_assoc]
    congr 1
    · exact List.reverse_take
    · simp [List.reverse_drop]

end Windows

/-! ## Concrete runs -/

/-- C4: `Find "abc"` is `"abcabacba"`, of length 9, and every one of the six orderings of
`a`, `b`, `c` occurs in it as a contiguous substring. The bytes `97`, `98`, `99` are the
letters `a`, `b`, `c`. -/
theorem find_abc :
    Find [97, 98, 99] = .ok [97, 98, 99, 97, 98, 97, 99, 98, 97] ∧
    [97, 98, 99, 97, 98, 97, 99, 98, 97].length = 9 ∧
    ∀ p : List Nat, List.Perm p [97, 98, 99] →
      p <:+: [97, 98, 99, 97, 98, 97, 99, 98, 97] := by
  refine ⟨rfl, rfl, ?_⟩
  intro p hp
  have key : ∀ q ∈ permutations [97, 98, 99],
      q <:+: [97, 98, 99, 97, 98, 97, 99, 98, 97] := by decide
  exact key p ((mem_permutations [97, 98, 99] p (by decide)).2 hp)

/-- C2, failing run: `Check "abc" ""` answers `true` although no ordering of `a`, `b`, `c`
occurs in the empty candidate: each verification bucket reads `ps[start:end]` with the
inclusive `end`, so the last permutation of every bucket is never looked up. -/
theorem check_accepts_empty_candidate :
    Check ['a', 'b', 'c'] [] = .ok true ∧ ¬ (['a', 'b', 'c'] <:+: ([] : List Char)) := by
  refine ⟨rfl, by decide⟩

/-- C5, failing run: `Check "abc" "abcabcabc"` answers `true` although `"cba"` does not
occur in `"abcabcabc"`. -/
theorem check_accepts_abcabcabc :
    Check ['a', 'b', 'c'] ['a', 'b', 'c', 'a', 'b', 'c', 'a', 'b', 'c'] = .ok true ∧
    List.Perm ['c', 'b', 'a'] ['a', 'b', 'c'] ∧
    ¬ (['c', 'b', 'a'] <:+: ['a', 'b', 'c', 'a', 'b', 'c', 'a', 'b', 'c']) := by
  refine ⟨rfl, by decide, by decide⟩

/-! ## Slice access inside the bounds -/

section Access
variable {β : Type}

theorem readAt_nat (xs : List β) (i : Nat) (h : i < xs.length) :
    readAt xs (i : Int) = .ok xs[i] := by
  have h0 : ¬ ((i : Int) < 0) := by omega
  simp [readAt, h0, List.getElem?_eq_getElem h]

theorem writeAt_nat (xs : List β) (i : Nat) (v : β) (h : i < xs.length) :
    writeAt xs (i : Int) v = .ok (xs.set i v) := by
  have h0 : (0 : Int) ≤ i ∧ (i : Int) < xs.length := by omega
  simp [writeAt, h0]

end Access

/-! ## The shift sequence -/

theorem markLoop_spec (d S : Nat) (hd : 0 < d) :
    ∀ (fuel j : Nat) (seq : List Nat), seq.length = S → d ∣ j + 1 → S - j < fuel →
      ∃ r, markLoop (d : Int) (S : Int) fuel (j : Int) seq = .ok r ∧ r.length = S ∧
        ∀ x, x < S → r.getD x 0 = seq.getD x 0 + if j ≤ x ∧ d ∣ x + 1 then 1 else 0 := by
  intro fuel
  induction fuel with
  | zero => intro j seq _ _ h; omega
  | succ fuel ih =>
    intro j seq hlen hdvd hfuel
    by_cases hj : j < S
    · have hj2 : (j : Int) < (S : Int) := by omega
      have hjl : j < seq.length := by omega
      obtain ⟨r, hr, hrl, hrx⟩ := ih (j + d) (seq.set j (seq[j] + 1))
        (by simp [hlen]) (by rw [Nat.add_right_comm]; exact (Nat.dvd_add_self_right).2 hdvd)
        (by omega)
      refine ⟨r, ?_, hrl, ?_⟩
      · simp only [markLoop, hj2, if_true, readAt_nat seq j hjl]
        simp only [bind, Except.bind, writeAt_nat seq j _ hjl]
        rw [← hr]
        push_cast
        rfl
      · intro x hx
        rw [hrx x hx]
        simp only [List.getD_eq_getElem?_getD, List.getElem?_set]
        by_cases hxj : j = x
        · subst hxj
          have h1 : ¬ (j + d ≤ j ∧ d ∣ j + 1) := by omega
          have hd0 : d ≠ 0 := by omega
          simp [hjl, hdvd, h1, hd0]
        · have h2 : (j + d ≤ x ∧ d ∣ x + 1) ↔ (j ≤ x ∧ d ∣ x + 1) := by
            constructor
            · rintro ⟨h3, h4⟩
              exact ⟨by omega, h4⟩
            · rintro ⟨h3, h4⟩
              refine ⟨?_, h4⟩
              by_contra hlt
              have h5 : d ∣ (x + 1) - (j + 1) := Nat.dvd_sub' h4 hdvd
              have h6 := Nat.eq_zero_of_dvd_of_lt h5 (by omega)
              omega
          simp [hxj, h2]
    · have hj2 : ¬ ((j : Int) < (S : Int)) := by omega
      refine ⟨seq, by simp [markLoop, hj2], hlen, ?_⟩
      intro x hx
      have h1 : ¬ (j ≤ x ∧ d ∣ x + 1) := by omega
      simp [h1]

theorem two_mul_half_factorial (n : Nat) (hn : 2 ≤ n) : 2 * (n.factorial / 2) = n.factorial :=
  Nat.mul_div_cancel' (Nat.dvd_factorial (by decide) hn)

theorem initial_eq (n i : Nat) (hi : 2 ≤ i) (hin : i ≤ n) :
    Int.tdiv (2 * (((n.factorial / 2 : Nat) : Int) - 1)) (i.factorial : Int)
      = ((n.factorial / i.factorial - 1 : Nat) : Int) := by
  have h2 := two_mul_half_factorial n (by omega)
  have hpos : 0 < n.factorial / 2 := by
    have := Nat.factorial_pos n
    omega
  have hcast : (2 * (((n.factorial / 2 : Nat) : Int) - 1)) = ((n.factorial - 2 : Nat) : Int) := by
    omega
  rw [hcast, ← Int.ofNat_tdiv]
  congr 1
  have hdvd : i.factorial ∣ n.factorial := Nat.factorial_dvd_factorial hin
  obtain ⟨d, hd⟩ := hdvd
  have hi2 : 2 ≤ i.factorial := by
    calc 2 = Nat.factorial 2 := rfl
      _ ≤ i.factorial := Nat.factorial_le hi
  have hipos : 0 < i.factorial := by omega
  have hdpos : 0 < d := by
    rcases Nat.eq_zero_or_pos d with h0 | h0
    · rw [h0, Nat.mul_zero] at hd
      have := Nat.factorial_pos n
      omega
    · exact h0
  rw [hd, Nat.mul_div_cancel_left _ hipos]
  obtain ⟨e, rfl⟩ : ∃ e, d = e + 1 := ⟨d - 1, by omega⟩
  generalize i.factorial = f at hi2 hipos hd ⊢
  rw [Nat.add_sub_cancel]
  apply Nat.div_eq_of_lt_le
  · rw [Nat.mul_add, Nat.mul_one, Nat.mul_comm e f]
    omega
  · rw [Nat.mul_comm (e + 1) f]
    omega

theorem interval_pos (n i : Nat) (hin : i ≤ n) : 0 < n.factorial / i.factorial :=
  Nat.div_pos (Nat.factorial_le hin) (Nat.factorial_pos i)

theorem shiftFold_spec (n : Nat) (hn : n ≤ 20) (is : List Nat) :
    (∀ i ∈ is, 2 ≤ i ∧ i ≤ n) → ∀ seq : List Nat, seq.length = n.factorial / 2 →
      ∃ r, is.foldlM
          (fun sequence (i : Nat) => do
            let fi ← factorial i
            let initial : Int := Int.tdiv (2 * (((n.factorial / 2 : Nat) : Int) - 1)) fi
            let interval := initial + 1
            markLoop interval (n.factorial / 2 : Nat) (n.factorial / 2 + 1) initial sequence)
          seq = .ok r ∧
        r.length = n.factorial / 2 ∧
        ∀ x, x < n.factorial / 2 →
          r.getD x 0 = seq.getD x 0 + is.countP (fun i => n.factorial / i.factorial ∣ x + 1) := by
  induction is with
  | nil =>
    intro _ seq hlen
    exact ⟨seq, rfl, hlen, by simp⟩
  | cons i is ih =>
    intro his seq hlen
    obtain ⟨hi2, hin⟩ := his i (List.mem_cons_self _ _)
    have hdpos := interval_pos n i hin
    obtain ⟨r1, hr1, hr1l, hr1x⟩ := markLoop_spec (n.factorial / i.factorial) (n.factorial / 2)
      hdpos (n.factorial / 2 + 1) (n.factorial / i.factorial - 1) seq hlen
      (by rw [Nat.sub_add_cancel hdpos]) (by omega)
    obtain ⟨r, hr, hrl, hrx⟩ := ih (fun j hj => his j (List.mem_cons_of_mem _ hj)) r1 hr1l
    refine ⟨r, ?_, hrl, ?_⟩
    · rw [List.foldlM_cons, factorial_eq i (by omega)]
      simp only [bind, Except.bind]
      rw [initial_eq n i hi2 hin]
      have hcast : (((n.factorial / i.factorial - 1 : Nat) : Int) + 1)
          = ((n.factorial / i.factorial : Nat) : Int) := by omega
      rw [hcast, hr1]
      exact hr
    · intro x hx
      rw [hrx x hx, hr1x x hx, List.countP_cons]
      have h1 : (n.factorial / i.factorial - 1 ≤ x ∧ n.factorial / i.factorial ∣ x + 1)
          ↔ n.factorial / i.factorial ∣ x + 1 := by
        constructor
        · exact fun h => h.2
        · intro h
          have := Nat.le_of_dvd (Nat.succ_pos x) h
          exact ⟨by omega, h⟩
      simp only [h1, decide_eq_true_eq]
      omega

theorem shiftSequence_spec (n : Nat) (hn : n ≤ 20) :
    ∃ r, shiftSequence n (n.factorial / 2) = .ok r ∧ r.length = n.factorial / 2 ∧
      ∀ x, x < n.factorial / 2 → r.getD x 0 = shiftCount n (x + 1) := by
  obtain ⟨r, hr, hrl, hrx⟩ := shiftFold_spec n hn (List.range' 2 (n - 1))
    (by intro i hi; rw [List.mem_range'_1] at hi; omega)
    (List.replicate (n.factorial / 2) 0) (by simp)
  refine ⟨r, by unfold shiftSequence; exact hr, hrl, ?_⟩
  intro x hx
  rw [hrx x hx]
  simp [shiftCount, hx]

/-! ## Sums over the shift sequence -/

theorem shiftSequence_eq (n : Nat) (hn : n ≤ 20) :
    shiftSequence n (n.factorial / 2) = .ok (shiftList n) := by
  obtain ⟨r, hr, hrl, hrx⟩ := shiftSequence_spec n hn
  rw [hr]
  congr 1
  apply List.ext_getElem
  · simp [shiftList, hrl]
  · intro x h1 h2
    have hx : x < n.factorial / 2 := by omega
    have := hrx x hx
    rw [List.getD_eq_getElem _ _ h1] at this
    simp [shiftList, this, Nat.add_comm]

theorem shiftCount_le (n k : Nat) : shiftCount n k ≤ n - 1 := by
  unfold shiftCount
  exact (List.countP_le_length _).trans (by simp)

theorem shiftCount_half (n : Nat) (hn : 2 ≤ n) : shiftCount n (n.factorial / 2) = n - 1 := by
  unfold shiftCount
  have hall : ∀ i ∈ List.range' 2 (n - 1),
      (fun i => decide (n.factorial / i.factorial ∣ n.factorial / 2)) i = true := by
    intro i hi
    rw [List.mem_range'_1] at hi
    simp only [decide_eq_true_eq]
    obtain ⟨d, hd⟩ := Nat.factorial_dvd_factorial (show i ≤ n by omega)
    obtain ⟨e, he⟩ := Nat.dvd_factorial (show 0 < 2 by decide) hi.1
    rw [hd, Nat.mul_div_cancel_left _ (Nat.factorial_pos i), he, Nat.mul_assoc,
      Nat.mul_div_cancel_left _ (by decide : 0 < 2)]
    exact Dvd.intro_left e rfl
  rw [List.countP_eq_length.2 hall]
  simp

theorem sum_map_ite_eq_countP (ks : List Nat) (p : Nat → Bool) :
    (ks.map (fun k => if p k then 1 else 0)).sum = ks.countP p := by
  induction ks with
  | nil => rfl
  | cons k ks ih =>
    simp only [List.map_cons, List.sum_cons, List.countP_cons, ih]
    omega

theorem sum_countP_comm (ks is : List Nat) (p : Nat → Nat → Bool) :
    (ks.map (fun k => is.countP (fun i => p i k))).sum
      = (is.map (fun i => ks.countP (fun k => p i k))).sum := by
  induction is with
  | nil => simp
  | cons i is ih =>
    simp only [List.countP_cons, List.map_cons, List.sum_cons]
    rw [List.sum_map_add, ih, sum_map_ite_eq_countP, Nat.add_comm]

theorem countP_multiples (d S : Nat) :
    (List.range' 1 S).countP (fun k => d ∣ k) = S / d := by
  induction S with
  | zero => simp
  | succ S ih =>
    rw [List.range'_concat, List.countP_append, ih, Nat.succ_div]
    simp [List.countP_cons, Nat.add_comm]

theorem two_mul_sum_shiftList (n : Nat) (hn : 1 ≤ n) :
    2 * (shiftList n).sum + 1 = superLength n := by
  have h1 : (shiftList n).sum
      = ((List.range' 2 (n - 1)).map (fun i => i.factorial / 2)).sum := by
    unfold shiftList shiftCount
    rw [sum_countP_comm (List.range' 1 (n.factorial / 2)) (List.range' 2 (n - 1))
      (fun i k => decide (n.factorial / i.factorial ∣ k))]
    congr 1
    apply List.map_congr_left
    intro i hi
    rw [List.mem_range'_1] at hi
    rw [countP_multiples]
    obtain ⟨d, hd⟩ := Nat.factorial_dvd_factorial (show i ≤ n by omega)
    obtain ⟨e, he⟩ := Nat.dvd_factorial (show 0 < 2 by decide) hi.1
    have hdpos : 0 < d := by
      rcases Nat.eq_zero_or_pos d with h0 | h0
      · rw [h0, Nat.mul_zero] at hd
        have := Nat.factorial_pos n
        omega
      · exact h0
    have hprod : 2 * e * d = 2 * (e * d) := Nat.mul_assoc 2 e d
    rw [hd, Nat.mul_div_cancel_left _ (Nat.factorial_pos i), he, hprod,
      Nat.mul_div_cancel_left _ (by decide : 0 < 2), Nat.mul_div_cancel _ hdpos,
      Nat.mul_div_cancel_left _ (by decide : 0 < 2)]
  have h2 : ∀ is : List Nat, (∀ i ∈ is, 2 ≤ i) →
      2 * (is.map (fun i => i.factorial / 2)).sum = (is.map Nat.factorial).sum := by
    intro is
    induction is with
    | nil => simp
    | cons i is ih =>
      intro h
      have := ih (fun j hj => h j (List.mem_cons_of_mem _ hj))
      have h3 := two_mul_half_factorial i (h i (List.mem_cons_self _ _))
      simp only [List.map_cons, List.sum_cons]
      omega
  have h3 : List.range' 1 n = 1 :: List.range' 2 (n - 1) := by
    obtain ⟨m, rfl⟩ : ∃ m, n = m + 1 := ⟨n - 1, by omega⟩
    rfl
  rw [h1, h2 _ (by intro i hi; rw [List.mem_range'_1] at hi; omega)]
  unfold superLength
  rw [h3]
  simp [Nat.add_comm]

theorem superLength_succ (n : Nat) : superLength (n + 1) = superLength n + (n + 1).factorial := by
  unfold superLength
  rw [List.range'_concat]
  simp [Nat.add_comm]

theorem superLength_ge (n : Nat) (hn : 1 ≤ n) : 2 * n ≤ superLength n + 1 := by
  induction n with
  | zero => omega
  | succ n ih =>
    rw [superLength_succ]
    rcases Nat.eq_zero_or_pos n with h0 | h0
    · subst h0
      simp [superLength]
    · have := ih h0
      have h2 : 2 ≤ (n + 1).factorial := by
        calc 2 = Nat.factorial 2 := rfl
          _ ≤ (n + 1).factorial := Nat.factorial_le (by omega)
      omega

theorem outputLength_fold (is : List Nat) (h : ∀ i ∈ is, i ≤ 20) (acc : Nat) :
    is.foldlM (fun outlen (i : Nat) => do
        let fi ← factorial (i : Int)
        pure (outlen + fi)) acc = .ok (acc + (is.map Nat.factorial).sum) := by
  induction is generalizing acc with
  | nil => simp [pure, Except.pure]
  | cons i is ih =>
    have := ih (fun j hj => h j (List.mem_cons_of_mem _ hj)) (acc + i.factorial)
    rw [List.foldlM_cons, factorial_eq i (h i (List.mem_cons_self _ _))]
    show List.foldlM _ (acc + i.factorial) is = _
    rw [this]
    simp [Nat.add_assoc]

theorem outputLength_eq (n : Nat) (hn : n ≤ 20) : outputLength n = .ok (superLength n) := by
  unfold outputLength superLength
  rw [outputLength_fold _ (by intro i hi; rw [List.mem_range'_1] at hi; omega)]
  simp

/-! ## Mirrored writes -/

section Writes
variable {α : Type}

theorem getElem?_set_set (o : List α) (p q : Nat) (v : α) (x : Nat) :
    ((o.set p v).set q v)[x]? = if (x = p ∨ x = q) ∧ x < o.length then some v else o[x]? := by
  simp only [List.getElem?_set, List.length_set]
  by_cases hq : q = x
  · subst hq
    by_cases hl : q < o.length
    · simp [hl]
    · have : o[q]? = none := List.getElem?_eq_none (by omega)
      simp [hl, this]
  · by_cases hp : p = x
    · subst hp
      by_cases hl : p < o.length
      · simp [hl, hq]
      · have : o[p]? = none := List.getElem?_eq_none (by omega)
        simp [hl, this, hq]
    · have h1 : ¬ (x = p ∨ x = q) := by omega
      simp [hq, hp, h1]

theorem mirrored_set_set (o : List α) (p : Nat) (v : α) (hp : p < o.length)
    (h : Mirrored o) : Mirrored ((o.set p v).set (o.length - 1 - p) v) := by
  intro x hx
  simp only [List.length_set] at hx ⊢
  rw [getElem?_set_set, getElem?_set_set]
  have hm := h x hx
  by_cases h1 : x = p ∨ x = o.length - 1 - p
  · have h2 : o.length - 1 - x = p ∨ o.length - 1 - x = o.length - 1 - p := by omega
    have h3 : o.length - 1 - x < o.length := by omega
    simp [h1, h2, hx, h3]
  · have h2 : ¬ (o.length - 1 - x = p ∨ o.length - 1 - x = o.length - 1 - p) := by omega
    simp [h1, h2, hm]

theorem mirrored_replicate (n : Nat) (a : α) : Mirrored (List.replicate n a) := by
  intro x hx
  simp only [List.length_replicate] at hx ⊢
  rw [List.getElem?_replicate, List.getElem?_replicate]
  have : n - 1 - x < n := by omega
  simp [hx, this]

theorem mirrored_reverse (o : List α) (h : Mirrored o) : o.reverse = o := by
  apply List.ext_getElem?
  intro x
  by_cases hx : x < o.length
  · rw [List.getElem?_reverse hx]
    exact (h x hx).symm
  · rw [List.getElem?_eq_none (by simpa using hx), List.getElem?_eq_none (by omega)]

theorem seed_spec (outlen : Nat) (suf : List α) :
    ∀ (i : Nat) (out : List α), out.length = outlen → Mirrored out →
      2 * (i + suf.length) ≤ outlen + 1 →
      ∃ r, (suf.enumFrom i).foldlM (fun out (ir : Nat × α) => do
              let out ← writeAt out (ir.1 : Int) ir.2
              writeAt out ((outlen : Int) - ir.1 - 1) ir.2) out = .ok r ∧
        r.length = outlen ∧ Mirrored r ∧ (∀ x, x < i → r[x]? = out[x]?) ∧
        (∀ x, x < suf.length → r[i + x]? = suf[x]?) := by
  induction suf with
  | nil =>
    intro i out hlen hm _
    exact ⟨out, rfl, hlen, hm, fun _ _ => rfl, by simp⟩
  | cons a suf ih =>
    intro i out hlen hm hb
    simp only [List.length_cons] at hb
    have hi : i < out.length := by omega
    have hi2 : outlen - 1 - i < (out.set i a).length := by simp; omega
    have hcast : (outlen : Int) - ((i : Nat) : Int) - 1 = ((outlen - 1 - i : Nat) : Int) := by
      omega
    have hm2 : Mirrored ((out.set i a).set (outlen - 1 - i) a) := by
      have := mirrored_set_set out i a hi hm
      rwa [hlen] at this
    obtain ⟨r, hr, hrl, hrm, hrlo, hrhi⟩ := ih (i + 1) ((out.set i a).set (outlen - 1 - i) a)
      (by simp [hlen]) hm2 (by omega)
    refine ⟨r, ?_, hrl, hrm, ?_, ?_⟩
    · rw [List.enumFrom_cons, List.foldlM_cons]
      simp only [writeAt_nat out i a hi, hcast, bind, Except.bind]
      rw [writeAt_nat _ _ a hi2]
      exact hr
    · intro x hx
      rw [hrlo x (by omega), getElem?_set_set]
      have : ¬ (x = i ∨ x = outlen - 1 - i) := by omega
      simp [this]
    · intro x hx
      cases x with
      | zero =>
        rw [Nat.add_zero, hrlo i (by omega), getElem?_set_set]
        simp [hi]
      | succ x =>
        have := hrhi x (by simpa using hx)
        rw [show i + (x + 1) = i + 1 + x by omega, this]
        simp

theorem seed_eq (value : List α) (outlen : Nat) (out : List α) (hlen : out.length = outlen)
    (hm : Mirrored out) (hb : 2 * value.length ≤ outlen + 1) :
    ∃ r, seed value.enum outlen out = .ok r ∧ r.length = outlen ∧ Mirrored r ∧
      ∀ x, x < value.length → r[x]? = value[x]? := by
  obtain ⟨r, hr, hrl, hrm, _, hrhi⟩ := seed_spec outlen value 0 out hlen hm (by omega)
  refine ⟨r, by unfold seed; exact hr, hrl, hrm, ?_⟩
  intro x hx
  have := hrhi x hx
  rwa [Nat.zero_add] at this

theorem seed_ok (outlen : Nat) (runes : List (Nat × α)) :
    ∀ out : List α, out.length = outlen → Mirrored out → (∀ p ∈ runes, p.1 < outlen) →
      ∃ r, seed runes outlen out = .ok r ∧ r.length = outlen ∧ Mirrored r := by
  induction runes with
  | nil =>
    intro out hlen hm _
    exact ⟨out, rfl, hlen, hm⟩
  | cons p runes ih =>
    intro out hlen hm hidx
    have hp : p.1 < outlen := hidx p (List.mem_cons_self _ _)
    have hi : p.1 < out.length := by omega
    have hi2 : outlen - 1 - p.1 < (out.set p.1 p.2).length := by simp; omega
    have hcast : (outlen : Int) - ((p.1 : Nat) : Int) - 1 = ((outlen - 1 - p.1 : Nat) : Int) := by
      omega
    have hm2 : Mirrored ((out.set p.1 p.2).set (outlen - 1 - p.1) p.2) := by
      have := mirrored_set_set out p.1 p.2 hi hm
      rwa [hlen] at this
    obtain ⟨r, hr, hrl, hrm⟩ := ih ((out.set p.1 p.2).set (outlen - 1 - p.1) p.2)
      (by simp [hlen]) hm2 (fun q hq => hidx q (List.mem_cons_of_mem _ hq))
    refine ⟨r, ?_, hrl, hrm⟩
    unfold seed at hr ⊢
    rw [List.foldlM_cons]
    simp only [writeAt_nat out p.1 p.2 hi, hcast, bind, Except.bind]
    rw [writeAt_nat _ _ p.2 hi2]
    exact hr

end Writes

/-! ## One shift entry -/

section CopyShift
variable {α : Type}

theorem copyStep_eq (n L cur inc i : Nat) (o : List α) (hl : o.length = L) (hn : n ≤ cur)
    (hi : i < inc) (hin : i < n) (hb : cur + inc ≤ L) :
    ∃ v, o[cur - n + i]? = some v ∧
      (do
        let v ← readAt o ((cur : Int) - n + i)
        let o1 ← writeAt o ((cur : Int) + inc - i - 1) v
        let v ← readAt o1 ((cur : Int) - n + i)
        writeAt o1 ((L : Int) - cur - inc + i) v)
      = .ok ((o.set (cur + inc - 1 - i) v).set (L - cur - inc + i) v) := by
  have hr : cur - n + i < o.length := by omega
  have hp : cur + inc - 1 - i < o.length := by omega
  have hq : L - cur - inc + i < o.length := by omega
  have c1 : (cur : Int) - n + i = ((cur - n + i : Nat) : Int) := by omega
  have c2 : (cur : Int) + inc - i - 1 = ((cur + inc - 1 - i : Nat) : Int) := by omega
  have c3 : (L : Int) - cur - inc + i = ((L - cur - inc + i : Nat) : Int) := by omega
  refine ⟨o[cur - n + i], List.getElem?_eq_getElem hr, ?_⟩
  rw [c1, c2, c3, readAt_nat o _ hr]
  simp only [bind, Except.bind]
  rw [writeAt_nat o _ _ hp]
  simp only []
  have hr2 : cur - n + i < (o.set (cur + inc - 1 - i) o[cur - n + i]).length := by
    simpa using hr
  have hq2 : L - cur - inc + i < (o.set (cur + inc - 1 - i) o[cur - n + i]).length := by
    simpa using hq
  rw [readAt_nat _ _ hr2]
  simp only []
  rw [writeAt_nat _ _ _ hq2]
  congr 2
  rw [List.getElem_set_ne]
  omega

theorem copyShift_mirror_index (L cur inc k : Nat) (hb : cur + inc ≤ L) (hk : k < inc) :
    L - cur - inc + k = L - 1 - (cur + inc - 1 - k) ∧ cur + inc - 1 - k < L := by
  omega

theorem copyShift_low_index (n L cur inc k x : Nat) (hn : n ≤ cur)
    (hb : cur + inc ≤ L) (hc : 2 * (cur + inc) ≤ L + 1 ∨ L + n = 2 * cur + inc)
    (hk : k < inc) (hx : x < cur)
    (h1 : x = cur + inc - 1 - k ∨ x = L - cur - inc + k) : x = cur - n + k := by
  omega

theorem copyShift_high_index (n L cur inc k j : Nat) (hin : inc ≤ n)
    (hb : cur + inc ≤ L) (hc : 2 * (cur + inc) ≤ L + 1 ∨ L + n = 2 * cur + inc)
    (hk : k < inc) (hj : j < k) :
    ¬ (cur + inc - 1 - j = cur + inc - 1 - k ∨ cur + inc - 1 - j = L - cur - inc + k) := by
  omega

theorem copyShift_loop (n L cur inc : Nat) (out : List α) (hl : out.length = L)
    (hm : Mirrored out) (hn : n ≤ cur) (hin : inc ≤ n) (hb : cur + inc ≤ L)
    (hc : 2 * (cur + inc) ≤ L + 1 ∨ L + n = 2 * cur + inc) :
    ∀ k, k ≤ inc →
      ∃ r, (List.range k).foldlM (fun out (i : Nat) => do
              let v ← readAt out ((cur : Int) - n + i)
              let out ← writeAt out ((cur : Int) + inc - i - 1) v
              let v ← readAt out ((cur : Int) - n + i)
              writeAt out ((L : Int) - cur - inc + i) v) out = .ok r ∧
        r.length = L ∧ Mirrored r ∧ (∀ x, x < cur → r[x]? = out[x]?) ∧
        (∀ j, j < k → r[cur + inc - 1 - j]? = out[cur - n + j]?) := by
  intro k
  induction k with
  | zero =>
    intro _
    exact ⟨out, rfl, hl, hm, fun _ _ => rfl, fun j hj => absurd hj (Nat.not_lt_zero j)⟩
  | succ k ih =>
    intro hk
    have hk1 : k < inc := hk
    obtain ⟨r, hr, hrl, hrm, hrlo, hrhi⟩ := ih (Nat.le_of_lt hk1)
    obtain ⟨v, hv, hstep⟩ :=
      copyStep_eq n L cur inc k r hrl hn hk1 (Nat.lt_of_lt_of_le hk1 hin) hb
    have hrk : cur - n + k < cur := by
      have := Nat.lt_of_lt_of_le hk1 hin
      omega
    have hv2 : out[cur - n + k]? = some v := by rw [← hrlo _ hrk]; exact hv
    obtain ⟨hq, hpl⟩ := copyShift_mirror_index L cur inc k hb hk1
    have e1 : (List.range (k + 1)).foldlM (fun out (i : Nat) => do
              let v ← readAt out ((cur : Int) - n + i)
              let out ← writeAt out ((cur : Int) + inc - i - 1) v
              let v ← readAt out ((cur : Int) - n + i)
              writeAt out ((L : Int) - cur - inc + i) v) out
          = .ok ((r.set (cur + inc - 1 - k) v).set (L - cur - inc + k) v) := by
      rw [List.range_succ, List.foldlM_append, hr]
      simp only [bind, Except.bind, List.foldlM_cons, List.foldlM_nil] at hstep ⊢
      rw [hstep]
      rfl
    have e2 : ((r.set (cur + inc - 1 - k) v).set (L - cur - inc + k) v).length = L := by
      simp [hrl]
    have e3 : Mirrored ((r.set (cur + inc - 1 - k) v).set (L - cur - inc + k) v) := by
      have := mirrored_set_set r (cur + inc - 1 - k) v (by rw [hrl]; exact hpl) hrm
      rw [hrl, ← hq] at this
      exact this
    have e4 : ∀ x, x < cur →
        ((r.set (cur + inc - 1 - k) v).set (L - cur - inc + k) v)[x]? = out[x]? := by
      intro x hx
      rw [getElem?_set_set]
      by_cases h1 : (x = cur + inc - 1 - k ∨ x = L - cur - inc + k) ∧ x < r.length
      · rw [if_pos h1, copyShift_low_index n L cur inc k x hn hb hc hk1 hx h1.1, hv2]
      · rw [if_neg h1]
        exact hrlo x hx
    have e5 : ∀ j, j < k + 1 →
        ((r.set (cur + inc - 1 - k) v).set (L - cur - inc + k) v)[cur + inc - 1 - j]?
          = out[cur - n + j]? := by
      intro j hj
      rw [getElem?_set_set]
      rcases Nat.lt_or_ge j k with hjk | hjk
      · have h1 := copyShift_high_index n L cur inc k j hin hb hc hk1 hjk
        rw [if_neg (fun h => h1 h.1)]
        exact hrhi j hjk
      · have hje : j = k := Nat.le_antisymm (Nat.le_of_lt_succ hj) hjk
        subst hje
        rw [if_pos ⟨Or.inl rfl, by rw [hrl]; exact hpl⟩, hv2]
    exact ⟨_, e1, e2, e3, e4, e5⟩

theorem copyShift_spec (n L cur inc : Nat) (out : List α) (hl : out.length = L)
    (hm : Mirrored out) (hn : n ≤ cur) (hin : inc ≤ n) (hb : cur + inc ≤ L)
    (hc : 2 * (cur + inc) ≤ L + 1 ∨ L + n = 2 * cur + inc) :
    ∃ r, copyShift n L cur inc out = .ok r ∧
      r.length = L ∧ Mirrored r ∧ (∀ x, x < cur → r[x]? = out[x]?) ∧
      (∀ j, j < inc → r[cur + inc - 1 - j]? = out[cur - n + j]?) := by
  unfold copyShift
  exact copyShift_loop n L cur inc out hl hm hn hin hb hc inc (Nat.le_refl _)

end CopyShift

/-! ## The walk over the shift sequence -/

section Walk
variable {α : Type}

theorem length_window (value : List α) (k : Nat) : (window value k).length = value.length := by
  simp [window, length_walkRev]

theorem walkRev_zero (l : List α) : walkRev l 0 = l.reverse := by
  induction l with
  | nil => rfl
  | cons x rest ih => simp [walkRev, ih]

theorem window_zero (value : List α) : window value 0 = value := by
  simp [window, walkRev_zero]

theorem window_succ (value : List α) (k : Nat) :
    window value (k + 1) = shiftWindow (window value k) (shiftCount value.length (k + 1)) := by
  unfold window
  rw [walkRev_succ, List.length_reverse]

theorem getElem?_shiftWindow (p : List α) (w x : Nat) (hw : w ≤ p.length) (hx : x < p.length) :
    (shiftWindow p w)[x]? = if x < p.length - w then p[w + x]? else p[p.length - 1 - x]? := by
  unfold shiftWindow
  by_cases h : x < p.length - w
  · rw [if_pos h, List.getElem?_append_left (by simp; exact h), List.getElem?_drop]
  · rw [if_neg h, List.getElem?_append_right (by simp; omega)]
    have h1 : x - (List.drop w p).length < (List.take w p).length := by simp; omega
    rw [List.getElem?_reverse h1, List.getElem?_take_of_lt (by simp; omega)]
    congr 1
    simp
    omega

theorem walk_step (value : List α) (L t cur inc : Nat) (out : List α)
    (hinv : WalkInv value L t cur out) (hinc : inc = shiftCount value.length (t + 1))
    (hb : cur + inc ≤ L)
    (hc : 2 * (cur + inc) ≤ L + 1 ∨ L + value.length = 2 * cur + inc) :
    ∃ r, copyShift value.length L cur inc out = .ok r ∧ WalkInv value L (t + 1) (cur + inc) r := by
  have hle : inc ≤ value.length := by
    rw [hinc]
    exact (shiftCount_le _ _).trans (Nat.sub_le _ _)
  obtain ⟨r, hr, hrl, hrm, hrlo, hrhi⟩ :=
    copyShift_spec value.length L cur inc out hinv.length_eq hinv.mirrored hinv.le_cur hle hb hc
  have hnew : ∀ x, x < value.length →
      r[cur + inc - value.length + x]? = (window value (t + 1))[x]? := by
    intro x hx
    have hlw := length_window value t
    rw [window_succ, ← hinc, getElem?_shiftWindow _ _ _ (by rw [hlw]; exact hle)
      (by rw [hlw]; exact hx), hlw]
    have hcur := hinv.le_cur
    by_cases h : x < value.length - inc
    · rw [if_pos h, hrlo _ (by omega), ← hinv.current _ (by omega)]
      congr 1
      omega
    · rw [if_neg h, ← hinv.current _ (by omega), ← hrhi (value.length - 1 - x) (by omega)]
      congr 1
      omega
  refine ⟨r, hr, ⟨hrl, hrm, Nat.le_trans hinv.le_cur (Nat.le_add_right _ _), hb, ?_, hnew⟩⟩
  intro s hs
  rcases Nat.lt_or_ge s (t + 1) with hlt | hge
  · obtain ⟨c, hc1, hc2, hc3⟩ := hinv.earlier s (Nat.le_of_lt_succ hlt)
    refine ⟨c, hc1, Nat.le_trans hc2 (Nat.le_add_right _ _), ?_⟩
    intro x hx
    rw [hrlo _ (by omega)]
    exact hc3 x hx
  · have : s = t + 1 := Nat.le_antisymm hs hge
    subst this
    exact ⟨cur + inc, Nat.le_trans hinv.le_cur (Nat.le_add_right _ _), Nat.le_refl _, hnew⟩

theorem walk_prefix (value : List α) (L : Nat) :
    ∀ (m t cur : Nat) (out : List α), WalkInv value L t cur out →
      2 * (cur + ((List.range' (t + 1) m).map (shiftCount value.length)).sum) ≤ L + 1 →
      ∃ r, walkShifts value.length L ((List.range' (t + 1) m).map (shiftCount value.length))
            cur out
          = .ok (cur + ((List.range' (t + 1) m).map (shiftCount value.length)).sum, r) ∧
        WalkInv value L (t + m)
          (cur + ((List.range' (t + 1) m).map (shiftCount value.length)).sum) r := by
  intro m
  induction m with
  | zero =>
    intro t cur out hinv _
    exact ⟨out, rfl, hinv⟩
  | succ m ih =>
    intro t cur out hinv hsum
    rw [List.range'_succ, List.map_cons, List.sum_cons] at hsum ⊢
    have hle := shiftCount_le value.length (t + 1)
    have h1 := hinv.le_cur
    have h2 := hinv.cur_le
    obtain ⟨r1, hr1, hinv1⟩ := walk_step value L t cur _ out hinv rfl (by omega)
      (Or.inl (by omega))
    obtain ⟨r, hr, hinv2⟩ := ih (t + 1) _ r1 hinv1 (by omega)
    refine ⟨r, ?_, ?_⟩
    · unfold walkShifts at hr ⊢
      rw [List.foldlM_cons]
      simp only [hr1, bind, Except.bind, pure, Except.pure]
      simp only [bind, Except.bind, pure, Except.pure] at hr
      rw [hr, Nat.add_assoc]
    · rw [show t + (m + 1) = t + 1 + m by omega, ← Nat.add_assoc]
      exact hinv2

end Walk

/-! ## `Find` runs to completion and holds every window -/

section FindSpec
variable {α : Type}

theorem infix_of_getElem? (w out : List α) (a : Nat)
    (hx : ∀ x, x < w.length → out[a + x]? = w[x]?) : w <:+: out := by
  have hw : w = (out.drop a).take w.length := by
    apply List.ext_getElem?
    intro x
    by_cases h : x < w.length
    · rw [List.getElem?_take_of_lt h, List.getElem?_drop, hx x h]
    · rw [List.getElem?_eq_none (by omega), List.getElem?_eq_none]
      simp only [List.length_take, List.length_drop]
      omega
  rw [hw]
  exact (List.take_prefix _ _).isInfix.trans (List.drop_suffix _ _).isInfix

theorem half_factorial_pos (n : Nat) (h : 0 < n.factorial / 2) : 2 ≤ n := by
  by_contra hlt
  have hn : n = 0 ∨ n = 1 := by omega
  rcases hn with rfl | rfl <;> simp at h

theorem shiftList_snoc (n : Nat) (h : 0 < n.factorial / 2) :
    shiftList n = (List.range' (0 + 1) (n.factorial / 2 - 1)).map (shiftCount n)
      ++ [shiftCount n (n.factorial / 2 - 1 + 1)] := by
  unfold shiftList
  obtain ⟨m, hm⟩ : ∃ m, n.factorial / 2 = m + 1 := ⟨n.factorial / 2 - 1, by omega⟩
  rw [hm, List.range'_concat]
  simp [Nat.add_comm]

theorem walk_bounds (n L T a w : Nat) (hT : 2 * T + 1 = L) (hs : T = a + w) (hw : w = n - 1)
    (hn : 2 ≤ n) (hL : 2 * n ≤ L + 1) :
    2 * (n + a) ≤ L + 1 ∧ n + a + w ≤ L ∧ L + n = 2 * (n + a) + w := by
  omega

theorem walk_all (value : List α) (out : List α)
    (hinv : WalkInv value (superLength value.length) 0 value.length out) :
    ∃ c r, walkShifts value.length (superLength value.length) (shiftList value.length)
          value.length out = .ok (c, r) ∧
      WalkInv value (superLength value.length) (value.length.factorial / 2) c r := by
  rcases Nat.eq_zero_or_pos (value.length.factorial / 2) with h0 | hpos
  · refine ⟨value.length, out, ?_, ?_⟩
    · simp [shiftList, h0, walkShifts, pure, Except.pure]
    · rw [h0]
      exact hinv
  · have hn2 := half_factorial_pos _ hpos
    have hsum := two_mul_sum_shiftList value.length (by omega)
    have hlast := shiftCount_half value.length hn2
    have hL := superLength_ge value.length (by omega)
    rw [shiftList_snoc _ hpos] at hsum ⊢
    rw [List.sum_append, List.sum_singleton] at hsum
    have hlast2 : shiftCount value.length (value.length.factorial / 2 - 1 + 1)
        = value.length - 1 := by
      rw [Nat.sub_add_cancel hpos]
      exact hlast
    obtain ⟨hb1, hb2, hb3⟩ := walk_bounds value.length (superLength value.length) _ _ _
      hsum rfl hlast2 hn2 hL
    obtain ⟨r1, hr1, hinv1⟩ := walk_prefix value (superLength value.length)
      (value.length.factorial / 2 - 1) 0 value.length out hinv hb1
    rw [Nat.zero_add] at hinv1
    obtain ⟨r2, hr2, hinv2⟩ := walk_step value (superLength value.length)
      (value.length.factorial / 2 - 1) _ _ r1 hinv1 rfl hb2 (Or.inr hb3)
    rw [Nat.sub_add_cancel hpos] at hinv2
    refine ⟨_, r2, ?_, hinv2⟩
    unfold walkShifts at hr1 ⊢
    rw [List.foldlM_append, hr1]
    simp only [bind, Except.bind, List.foldlM_cons, List.foldlM_nil, hr2, pure, Except.pure]
    rw [Nat.sub_add_cancel hpos]

theorem walk_from_seed (out0 : List α) (n : Nat) (hlen : out0.length = superLength n)
    (hm : Mirrored out0) (hn : n ≤ superLength n) :
    ∃ c r, walkShifts n (superLength n) (shiftList n) n out0 = .ok (c, r) ∧
      r.length = superLength n ∧ Mirrored r ∧ c ≤ superLength n ∧
      ∀ s, s ≤ n.factorial / 2 → window (out0.take n) s <:+: r := by
  have hv : (out0.take n).length = n := by
    rw [List.length_take, hlen]
    exact Nat.min_eq_left hn
  have hcur : ∀ x, x < (out0.take n).length →
      out0[(out0.take n).length - (out0.take n).length + x]? = (window (out0.take n) 0)[x]? := by
    intro x hx
    rw [window_zero, Nat.sub_self, Nat.zero_add, List.getElem?_take_of_lt (by rw [← hv]; exact hx)]
  have hinv0 : WalkInv (out0.take n) (superLength (out0.take n).length) 0
      (out0.take n).length out0 := by
    refine ⟨by rw [hv]; exact hlen, hm, Nat.le_refl _, by rw [hv]; exact hn, ?_, hcur⟩
    intro s hs
    have : s = 0 := by omega
    subst this
    exact ⟨(out0.take n).length, Nat.le_refl _, Nat.le_refl _, hcur⟩
  obtain ⟨c, r, hwalk, hinv⟩ := walk_all (out0.take n) out0 hinv0
  have hlr := hinv.length_eq
  have hcl := hinv.cur_le
  have hwin : ∀ s, s ≤ (out0.take n).length.factorial / 2 → window (out0.take n) s <:+: r := by
    intro s hs
    obtain ⟨c1, _, _, hc3⟩ := hinv.earlier s hs
    apply infix_of_getElem? _ _ (c1 - (out0.take n).length)
    rw [length_window]
    exact hc3
  rw [hv] at hwalk hlr hcl hwin
  exact ⟨c, r, hwalk, hlr, hinv.mirrored, hcl, hwin⟩

theorem bind_ok {β γ : Type} (x : Except Fault β) (f : β → Except Fault γ) (c : γ)
    (h : x >>= f = .ok c) : ∃ b, x = .ok b ∧ f b = .ok c := by
  cases x with
  | error e => exact Except.noConfusion h
  | ok b => exact ⟨b, rfl, h⟩

theorem foldlM_preserves {β γ : Type} (f : β → γ → Except Fault β) (Inv : β → Prop)
    (l : List γ) (hf : ∀ b x b', x ∈ l → f b x = .ok b' → Inv b → Inv b') :
    ∀ (b b' : β), l.foldlM f b = .ok b' → Inv b → Inv b' := by
  induction l with
  | nil =>
    intro b b' h hb
    have h2 : (Except.ok b : Except Fault β) = .ok b' := h
    injection h2 with h3
    rw [← h3]
    exact hb
  | cons x l ih =>
    intro b b' h hb
    rw [List.foldlM_cons] at h
    obtain ⟨b1, h1, h2⟩ := bind_ok _ _ _ h
    exact ih (fun b x b' hx => hf b x b' (List.mem_cons_of_mem _ hx)) b1 b' h2
      (hf b x b1 (List.mem_cons_self _ _) h1 hb)

theorem readAt_mem (xs : List α) (i : Int) (v : α) (h : readAt xs i = .ok v) : v ∈ xs := by
  unfold readAt at h
  by_cases hneg : i < 0
  · rw [if_pos hneg] at h
    exact Except.noConfusion h
  · rw [if_neg hneg] at h
    cases hget : xs[i.toNat]? with
    | none =>
      rw [hget] at h
      exact Except.noConfusion h
    | some w =>
      rw [hget] at h
      injection h with h
      subst h
      exact List.getElem?_mem hget

theorem writeAt_forall (P : α → Prop) (xs : List α) (i : Int) (v : α) (r : List α)
    (h : writeAt xs i v = .ok r) (hv : P v) (hxs : ∀ x ∈ xs, P x) : ∀ x ∈ r, P x := by
  unfold writeAt at h
  by_cases hc : 0 ≤ i ∧ i < xs.length
  · rw [if_pos hc] at h
    injection h with h
    subst h
    intro x hx
    rcases List.mem_or_eq_of_mem_set hx with hmem | heq
    · exact hxs x hmem
    · rw [heq]
      exact hv
  · rw [if_neg hc] at h
    exact Except.noConfusion h

theorem seed_preserves (P : α → Prop) (runes : List (Nat × α)) (outlen : Nat)
    (hr : ∀ p ∈ runes, P p.2) (out r : List α) (h : seed runes outlen out = .ok r)
    (hout : ∀ x ∈ out, P x) : ∀ x ∈ r, P x := by
  unfold seed at h
  refine foldlM_preserves _ (fun o => ∀ x ∈ o, P x) runes ?_ out r h hout
  intro b p b' hp hstep hb
  obtain ⟨o1, h1, h2⟩ := bind_ok _ _ _ hstep
  exact writeAt_forall P _ _ _ _ h2 (hr p hp) (writeAt_forall P _ _ _ _ h1 (hr p hp) hb)

theorem copyShift_preserves (P : α → Prop) (n L cur inc : Nat) (out r : List α)
    (h : copyShift n L cur inc out = .ok r) (hout : ∀ x ∈ out, P x) : ∀ x ∈ r, P x := by
  unfold copyShift at h
  refine foldlM_preserves _ (fun o => ∀ x ∈ o, P x) (List.range inc) ?_ out r h hout
  intro b i b' _ hstep hb
  obtain ⟨v, h1, hstep⟩ := bind_ok _ _ _ hstep
  obtain ⟨o1, h2, hstep⟩ := bind_ok _ _ _ hstep
  obtain ⟨w, h3, h4⟩ := bind_ok _ _ _ hstep
  have ho1 := writeAt_forall P _ _ _ _ h2 (hb v (readAt_mem _ _ _ h1)) hb
  exact writeAt_forall P _ _ _ _ h4 (ho1 w (readAt_mem _ _ _ h3)) ho1

theorem walkShifts_preserves (P : α → Prop) (n L : Nat) (ws : List Nat) (cur c : Nat)
    (out r : List α) (h : walkShifts n L ws cur out = .ok (c, r))
    (hout : ∀ x ∈ out, P x) : ∀ x ∈ r, P x := by
  unfold walkShifts at h
  refine foldlM_preserves _ (fun st : Nat × List α => ∀ x ∈ st.2, P x) ws ?_ (cur, out) (c, r)
    h hout
  intro st inc st' _ hstep hst
  obtain ⟨o1, h1, h2⟩ := bind_ok _ _ _ hstep
  have h3 : (Except.ok (st.1 + inc, o1) : Except Fault (Nat × List α)) = .ok st' := h2
  injection h3 with h4
  rw [← h4]
  exact copyShift_preserves P n L st.1 inc st.2 o1 h1 hst

end FindSpec

/-! ## Strings, runes and `Find` -/

theorem rangeAux_index (s : List Nat) :
    ∀ (i skip : Nat) (p : Nat × Nat), p ∈ rangeAux i skip s → i ≤ p.1 ∧ p.1 < i + s.length := by
  induction s with
  | nil => intro i skip p hp; simp [rangeAux] at hp
  | cons b rest ih =>
    intro i skip p hp
    cases skip with
    | zero =>
      simp only [rangeAux, List.mem_cons] at hp
      rcases hp with rfl | hp
      · simp
      · have := ih _ _ p hp
        simp only [List.length_cons]
        omega
    | succ skip =>
      simp only [rangeAux] at hp
      have := ih _ _ p hp
      simp only [List.length_cons]
      omega

theorem rangeAux_ascii (s : List Nat) :
    ∀ i : Nat, (∀ b ∈ s, b < 0x80) → rangeAux i 0 s = s.enumFrom i := by
  induction s with
  | nil => intro i _; rfl
  | cons b rest ih =>
    intro i h
    have hb : b < 0x80 := h b (List.mem_cons_self _ _)
    have hd : decodeRune (b :: rest) = (b, 1) := by
      simp only [decodeRune, hb, if_true]
    simp only [rangeAux, hd, List.enumFrom_cons, Nat.sub_self]
    rw [ih (i + 1) (fun c hc => h c (List.mem_cons_of_mem _ hc))]

theorem rangeRunes_ascii (s : List Nat) (h : ∀ b ∈ s, b < 0x80) : rangeRunes s = s.enum :=
  rangeAux_ascii s 0 h

theorem encodeRunes_ascii (out : List Nat) (h : ∀ x ∈ out, x < 0x80) :
    encodeRunes out = out := by
  unfold encodeRunes
  induction out with
  | nil => rfl
  | cons x out ih =>
    have hx : x < 0x80 := h x (List.mem_cons_self _ _)
    rw [List.flatMap_cons, ih (fun y hy => h y (List.mem_cons_of_mem _ hy))]
    simp [encodeRune, hx]

theorem superLength_ge_self (n : Nat) : n ≤ superLength n := by
  rcases Nat.eq_zero_or_pos n with h0 | hpos
  · omega
  · have := superLength_ge n hpos
    omega

theorem findRunes_spec (value : List Nat) (hn : value.length ≤ 20) :
    ∃ out0 c out,
      seed (rangeRunes value) (superLength value.length)
        (List.replicate (superLength value.length) 0) = .ok out0 ∧
      out0.length = superLength value.length ∧
      walkShifts value.length (superLength value.length) (shiftList value.length)
        value.length out0 = .ok (c, out) ∧
      c ≤ superLength value.length ∧
      findRunes value = .ok out ∧ out.length = superLength value.length ∧ Mirrored out ∧
      ∀ s, s ≤ value.length.factorial / 2 → window (out0.take value.length) s <:+: out := by
  have hnL := superLength_ge_self value.length
  obtain ⟨out0, hseed, hlen0, hm0⟩ := seed_ok (superLength value.length) (rangeRunes value)
    (List.replicate (superLength value.length) 0) (by simp) (mirrored_replicate _ _)
    (by
      intro p hp
      have := rangeAux_index value 0 0 p hp
      omega)
  obtain ⟨c, r, hwalk, hrl, hrm, hcl, hwin⟩ :=
    walk_from_seed out0 value.length hlen0 hm0 hnL
  refine ⟨out0, c, r, hseed, hlen0, hwalk, hcl, ?_, hrl, hrm, hwin⟩
  unfold findRunes
  simp only [factorial_eq _ hn, shiftSequence_eq _ hn, outputLength_eq _ hn, hseed, hwalk,
    bind, Except.bind, pure, Except.pure]

theorem find_of_findRunes (value out : List Nat) (h : findRunes value = .ok out) :
    Find value = .ok (encodeRunes out) := by
  unfold Find
  simp only [h, bind, Except.bind, pure, Except.pure]

theorem find_ascii_spec (value : List Nat) (hn : value.length ≤ 20)
    (hascii : ∀ b ∈ value, b < 0x80) :
    ∃ out, findRunes value = .ok out ∧ Find value = .ok out ∧
      out.length = superLength value.length ∧ Mirrored out ∧
      ∀ s, s ≤ value.length.factorial / 2 → window value s <:+: out := by
  obtain ⟨out0, c, out, hseed, hlen0, hwalk, _, hF, hlen, hm, hwin⟩ := findRunes_spec value hn
  have hnL := superLength_ge_self value.length
  have hL : 2 * value.length ≤ superLength value.length + 1 := by
    rcases Nat.eq_zero_or_pos value.length with h0 | hpos
    · omega
    · exact superLength_ge _ hpos
  rw [rangeRunes_ascii value hascii] at hseed
  obtain ⟨r, hr, _, _, hval⟩ := seed_eq value (superLength value.length)
    (List.replicate (superLength value.length) 0) (by simp) (mirrored_replicate _ _) hL
  rw [hseed] at hr
  injection hr with hr
  subst hr
  have htake : out0.take value.length = value := by
    apply List.ext_getElem?
    intro x
    by_cases hx : x < value.length
    · rw [List.getElem?_take_of_lt hx]
      exact hval x hx
    · rw [List.getElem?_eq_none (by rw [List.length_take]; omega),
        List.getElem?_eq_none (by omega)]
  rw [htake] at hwin
  have hsmall0 : ∀ x ∈ out0, x < 0x80 := by
    refine seed_preserves (fun x => x < 0x80) value.enum _ ?_ _ _ hseed ?_
    · rintro ⟨i, b⟩ hp
      obtain ⟨hi, hb⟩ := List.mem_enum hp
      rw [hb]
      exact hascii _ (List.getElem_mem hi)
    · intro x hx
      rw [List.eq_of_mem_replicate hx]
      decide
  have hsmall : ∀ x ∈ out, x < 0x80 :=
    walkShifts_preserves (fun x => x < 0x80) _ _ _ _ _ _ _ hwalk hsmall0
  refine ⟨out, hF, ?_, hlen, hm, hwin⟩
  rw [find_of_findRunes value out hF, encodeRunes_ascii out hsmall]

/-! ## `Find` builds a superpermutation -/

section FindClaims

theorem find_contains_every_ordering (input : List Nat) (h20 : input.length ≤ 20)
    (hascii : ∀ b ∈ input, b < 0x80) :
    ∃ out, Find input = .ok out ∧ out.length = superLength input.length ∧ out.reverse = out ∧
      ∀ p, List.Perm p input → p <:+: out := by
  obtain ⟨out, _, hF, hlen, hm, hwin⟩ := find_ascii_spec input h20 hascii
  refine ⟨out, hF, hlen, mirrored_reverse out hm, ?_⟩
  intro p hp
  obtain ⟨k, hk, hpk⟩ := exists_walkRev_of_perm input.reverse p
    (hp.trans (List.reverse_perm input).symm)
  rw [List.length_reverse] at hk
  rcases Nat.lt_or_ge (input.length.factorial / 2) k with hgt | hle
  · have hrev := walkRev_reverse input.reverse k (by rw [List.length_reverse]; exact hk)
    rw [List.length_reverse, hpk] at hrev
    have hk2 : input.length.factorial - 1 - k ≤ input.length.factorial / 2 := by omega
    have hin := hwin _ hk2
    unfold window at hin
    rw [← hrev, ← mirrored_reverse out hm, List.reverse_infix] at hin
    exact hin
  · have hin := hwin k hle
    unfold window at hin
    rw [hpk] at hin
    exact hin

theorem superLength_eq_sum (n : Nat) :
    superLength n = Finset.sum (Finset.Icc 1 n) Nat.factorial := by
  induction n with
  | zero => simp [superLength]
  | succ n ih => rw [superLength_succ, Finset.sum_Icc_succ_top (by omega), ih]

/-- C1, failing run: on the two distinct single-byte symbols `0x80`, `0x81` the code takes
`len(value) = 2` in bytes but ranges over the string rune by rune, where each of the two
bytes decodes to `U+FFFD`; it returns `string(out)` for three runes `U+FFFD`, the nine
bytes `ef bf bd ef bf bd ef bf bd`, in which neither ordering of the input occurs. On every
input of `n` pairwise distinct bytes below `0x80`, `1 ≤ n ≤ 20`, the returned string does
hold every ordering of the input as a contiguous substring. -/
theorem find_high_bytes :
    Find [0x80, 0x81]
      = .ok [0xEF, 0xBF, 0xBD, 0xEF, 0xBF, 0xBD, 0xEF, 0xBF, 0xBD] ∧
    findRunes [0x80, 0x81] = .ok [0xFFFD, 0xFFFD, 0xFFFD] ∧
    ([0x80, 0x81] : List Nat).Nodup ∧
    ¬ ([0x80, 0x81] <:+: [0xEF, 0xBF, 0xBD, 0xEF, 0xBF, 0xBD, 0xEF, 0xBF, 0xBD]) ∧
    ¬ ([0x81, 0x80] <:+: [0xEF, 0xBF, 0xBD, 0xEF, 0xBF, 0xBD, 0xEF, 0xBF, 0xBD]) ∧
    (∀ input : List Nat, input.Nodup → (∀ b ∈ input, b < 0x80) → 1 ≤ input.length →
      input.length ≤ 20 →
      ∃ out, Find input = .ok out ∧ ∀ p, List.Perm p input → p <:+: out) := by
  refine ⟨rfl, rfl, by decide, by decide, by decide, ?_⟩
  intro input _ hascii _ h20
  obtain ⟨out, hF, _, _, hall⟩ := find_contains_every_ordering input h20 hascii
  exact ⟨out, hF, hall⟩

/-- C3, failing run: on the two single-byte symbols `0x80`, `0x81` the returned string has
9 bytes, while `1! + 2! = 3`: the slice of `1! + 2!` runes is converted to a string in
which every rune `U+FFFD` takes three bytes. The rune slice has `1! + ... + n!` entries
on every input of `n ≤ 20` bytes, and on every input of `n` bytes below `0x80`,
`1 ≤ n ≤ 20`, the returned string has exactly `1! + ... + n!` bytes. -/
theorem find_high_bytes_length :
    (∃ out, Find [0x80, 0x81] = .ok out ∧ out.length = 9 ∧
      Finset.sum (Finset.Icc 1 ([0x80, 0x81] : List Nat).length) Nat.factorial = 3) ∧
    (∀ input : List Nat, input.length ≤ 20 →
      ∃ runes, findRunes input = .ok runes ∧ Find input = .ok (encodeRunes runes) ∧
        runes.length = Finset.sum (Finset.Icc 1 input.length) Nat.factorial) ∧
    (∀ input : List Nat, (∀ b ∈ input, b < 0x80) → 1 ≤ input.length → input.length ≤ 20 →
      ∃ out, Find input = .ok out ∧
        out.length = Finset.sum (Finset.Icc 1 input.length) Nat.factorial) := by
  refine ⟨⟨_, rfl, rfl, by decide⟩, ?_, ?_⟩
  · intro input h20
    obtain ⟨_, _, runes, _, _, _, _, hR, hlen, _⟩ := findRunes_spec input h20
    exact ⟨runes, hR, find_of_findRunes input runes hR, by rw [hlen, superLength_eq_sum]⟩
  · intro input hascii _ h20
    obtain ⟨out, hF, hlen, _⟩ := find_contains_every_ordering input h20 hascii
    exact ⟨out, hF, by rw [hlen, superLength_eq_sum]⟩

end FindClaims

/-! ## `Check` on a string that holds every ordering -/

section CheckSpec
variable {α : Type}

theorem lookupHit_iff [DecidableEq α] (data p : List α) :
    lookupHit data p = true ↔ p ≠ [] ∧ p <:+: data := by
  unfold lookupHit
  simp only [Bool.and_eq_true, Bool.not_eq_true', List.isEmpty_eq_false, List.any_eq_true,
    List.mem_tails, List.isPrefixOf_iff_prefix]
  constructor
  · rintro ⟨h1, t, ht, hp⟩
    exact ⟨h1, List.infix_iff_prefix_suffix.2 ⟨t, hp, ht⟩⟩
  · rintro ⟨h1, h2⟩
    obtain ⟨t, hp, ht⟩ := List.infix_iff_prefix_suffix.1 h2
    exact ⟨h1, t, ht, hp⟩

theorem distribute_small (n : Nat) (h1 : 1 ≤ n) (h32 : n ≤ 32) :
    distribute n = .ok ((List.range n).map (fun i => (i, i))) := by
  rw [distribute_eq n h1]
  have hmin : min 32 n = n := by omega
  congr 1
  rw [hmin]
  apply List.map_congr_left
  intro i _
  have hs : bucketStart n i = i := by
    simp [bucketStart, hmin, Nat.div_self (by omega : 0 < n)]
  simp [bucketStop, hs, hmin, Nat.div_self (by omega : 0 < n)]

theorem distribute_bounds (count : Nat) (h : 1 ≤ count) (buckets : List (Nat × Nat))
    (hb : distribute count = .ok buckets) :
    ∀ b ∈ buckets, b.1 ≤ b.2 ∧ b.2 < count := by
  intro b hmem
  obtain ⟨i, hi⟩ := List.getElem?_of_mem hmem
  obtain ⟨hlt, rfl⟩ := (distribute_getElem? count h buckets hb i b).1 hi
  have h1 := bucketStart_succ count i h
  have h2 := bucketStart_mono count h (show i + 1 ≤ min 32 count from hlt)
  have h3 := bucketStart_last count h
  have h4 := bucketStart_le_stop count i h
  simp only
  omega

theorem permWorker_fill (input : List α) (a : α) (current : Nat)
    (ha : input[current]? = some a) (inc : Nat) (qs : List (List α)) :
    ∀ (j : Nat) (ps : List (List α)), inc + j + qs.length ≤ ps.length →
      ∃ r, (qs.enumFrom j).foldlM (fun ps (ip : Nat × List α) => do
              let c ← readAt input (current : Int)
              writeAt ps ((inc : Int) + ip.1) (c :: ip.2)) ps = .ok r ∧
        r.length = ps.length ∧
        (∀ x, x < inc + j ∨ inc + j + qs.length ≤ x → r[x]? = ps[x]?) ∧
        (∀ i, i < qs.length → r[inc + j + i]? = qs[i]?.map (a :: ·)) := by
  have hcur : current < input.length := (List.getElem?_eq_some_iff.1 ha).1
  have hread : readAt input (current : Int) = .ok a := by
    rw [readAt_nat input current hcur]
    congr 1
    exact (List.getElem?_eq_some_iff.1 ha).2
  induction qs with
  | nil =>
    intro j ps _
    exact ⟨ps, rfl, rfl, fun _ _ => rfl, by simp⟩
  | cons q qs ih =>
    intro j ps hlen
    simp only [List.length_cons] at hlen
    have hw : inc + j < ps.length := by omega
    have hcast : (inc : Int) + ((j : Nat) : Int) = ((inc + j : Nat) : Int) := by omega
    obtain ⟨r, hr, hrl, hrout, hrin⟩ := ih (j + 1) (ps.set (inc + j) (a :: q))
      (by simp; omega)
    refine ⟨r, ?_, by simpa using hrl, ?_, ?_⟩
    · rw [List.enumFrom_cons, List.foldlM_cons]
      simp only [hread, hcast, bind, Except.bind, writeAt_nat ps (inc + j) _ hw] at hr ⊢
      exact hr
    · intro x hx
      simp only [List.length_cons] at hx
      rw [hrout x (by omega), List.getElem?_set]
      have : ¬ (inc + j = x) := by omega
      simp [this]
    · intro i hi
      cases i with
      | zero =>
        rw [Nat.add_zero, hrout _ (by omega), List.getElem?_set]
        simp [hw]
      | succ i =>
        have := hrin i (by simpa using hi)
        rw [show inc + j + (i + 1) = inc + (j + 1) + i by omega, this]
        simp

theorem factorial_pred (n : Nat) (h1 : 1 ≤ n) (h20 : n ≤ 20) :
    factorial ((n : Int) - 1) = .ok (n - 1).factorial := by
  have : (n : Int) - 1 = ((n - 1 : Nat) : Int) := by omega
  rw [this, factorial_eq _ (by omega)]

theorem block_le (n c : Nat) (hc : c < n) :
    c * (n - 1).factorial + (n - 1).factorial ≤ n.factorial := by
  obtain ⟨m, rfl⟩ : ∃ m, n = m + 1 := ⟨n - 1, by omega⟩
  rw [Nat.add_sub_cancel, ← Nat.succ_mul, Nat.factorial_succ]
  exact Nat.mul_le_mul_right _ hc

theorem permWorker_spec (input : List α) (h2 : 2 ≤ input.length) (h20 : input.length ≤ 20)
    (c : Nat) (hc : c < input.length) (ps : List (List α))
    (hps : ps.length = input.length.factorial) :
    ∃ r, permWorker input ps c = .ok r ∧ r.length = input.length.factorial ∧
      (∀ x, x < c * (input.length - 1).factorial ∨
          c * (input.length - 1).factorial + (input.length - 1).factorial ≤ x →
        r[x]? = ps[x]?) ∧
      (∀ i, i < (input.length - 1).factorial →
        ∃ a, input[c]? = some a ∧
          r[c * (input.length - 1).factorial + i]?
            = (permutations (splice input c))[i]?.map (a :: ·)) := by
  have ha : input[c]? = some input[c] := List.getElem?_eq_getElem hc
  have hsl := splice_length input c hc
  have hne : splice input c ≠ [] := by
    intro h
    rw [h] at hsl
    simp at hsl
    omega
  have hlen : (permutations (splice input c)).length = (input.length - 1).factorial := by
    rw [length_permutations _ hne, hsl]
  have hblock := block_le input.length c hc
  obtain ⟨r, hr, hrl, hrout, hrin⟩ := permWorker_fill input input[c] c ha
    (c * (input.length - 1).factorial) (permutations (splice input c)) 0 ps
    (by rw [hlen, hps]; omega)
  refine ⟨r, ?_, by rw [hrl, hps], ?_, ?_⟩
  · unfold permWorker
    rw [factorial_pred _ (by omega) h20]
    exact hr
  · intro x hx
    exact hrout x (by rw [hlen]; omega)
  · intro i hi
    exact ⟨input[c], ha, hrin i (by rw [hlen]; exact hi)⟩

theorem workers_spec (input : List α) (h2 : 2 ≤ input.length) (h20 : input.length ≤ 20) :
    ∀ k, k ≤ input.length → ∀ ps : List (List α), ps.length = input.length.factorial →
      ∃ r, ((List.range k).map (fun i => (i, i))).foldlM
            (fun ps (b : Nat × Nat) => permWorker input ps b.1) ps = .ok r ∧
        r.length = input.length.factorial ∧
        (∀ x, k * (input.length - 1).factorial ≤ x → r[x]? = ps[x]?) ∧
        (∀ c i, c < k → i < (input.length - 1).factorial →
          ∃ a, input[c]? = some a ∧
            r[c * (input.length - 1).factorial + i]?
              = (permutations (splice input c))[i]?.map (a :: ·)) := by
  intro k
  induction k with
  | zero =>
    intro _ ps hps
    exact ⟨ps, rfl, hps, fun _ _ => rfl, fun c i hc _ => absurd hc (Nat.not_lt_zero c)⟩
  | succ k ih =>
    intro hk ps hps
    obtain ⟨r1, hr1, hr1l, hr1out, hr1in⟩ := ih (by omega) ps hps
    obtain ⟨r, hr, hrl, hrout, hrin⟩ := permWorker_spec input h2 h20 k (by omega) r1 hr1l
    refine ⟨r, ?_, hrl, ?_, ?_⟩
    · rw [List.range_succ, List.map_append, List.foldlM_append, hr1]
      simp only [bind, Except.bind, List.map_cons, List.map_nil, List.foldlM_cons,
        List.foldlM_nil, hr, pure, Except.pure]
    · intro x hx
      rw [Nat.succ_mul] at hx
      rw [hrout x (Or.inr hx)]
      exact hr1out x (by omega)
    · intro c i hc hi
      rcases Nat.lt_or_ge c k with hlt | hge
      · obtain ⟨a, ha, hv⟩ := hr1in c i hlt hi
        refine ⟨a, ha, ?_⟩
        rw [hrout _ (Or.inl ?_)]
        · exact hv
        · have : (c + 1) * (input.length - 1).factorial ≤ k * (input.length - 1).factorial :=
            Nat.mul_le_mul_right _ hlt
          rw [Nat.succ_mul] at this
          omega
      · have : c = k := by omega
        subst this
        exact hrin i hi

end CheckSpec

/-! ## `Check` accepts the output of `Find` -/

section CheckFind
variable {α : Type}

theorem verify_fold_hits [DecidableEq α] (data : List α) (slice : List (List α))
    (hall : ∀ p ∈ slice, lookupHit data p = true) (status : Bool) :
    slice.foldl (fun status p => if lookupHit data p then status else false) status = status := by
  induction slice generalizing status with
  | nil => rfl
  | cons p slice ih =>
    rw [List.foldl_cons, hall p (List.mem_cons_self _ _), if_pos rfl]
    exact ih (fun q hq => hall q (List.mem_cons_of_mem _ hq)) status

theorem verifyBucket_hits [DecidableEq α] (data : List α) (ps : List (List α))
    (start stop : Nat) (hs : start ≤ stop) (hl : stop ≤ ps.length)
    (hall : ∀ p ∈ ps, lookupHit data p = true) (status : Bool) :
    verifyBucket data ps start stop status = .ok status := by
  unfold verifyBucket sliceRange
  have hc : (0 : Int) ≤ (start : Int) ∧ (start : Int) ≤ (stop : Int) ∧
      (stop : Int) ≤ (ps.length : Int) := by omega
  simp only [hc, and_self, if_true, bind, Except.bind, pure, Except.pure]
  rw [verify_fold_hits]
  intro p hp
  exact hall p (List.mem_of_mem_drop (List.mem_of_mem_take hp))

theorem verify_all_hits [DecidableEq α] (data : List α) (ps : List (List α))
    (buckets : List (Nat × Nat)) (hb : ∀ b ∈ buckets, b.1 ≤ b.2 ∧ b.2 < ps.length)
    (hall : ∀ p ∈ ps, lookupHit data p = true) (status : Bool) :
    buckets.foldlM (fun status b => verifyBucket data ps b.1 b.2 status) status
      = .ok status := by
  induction buckets with
  | nil => rfl
  | cons b buckets ih =>
    obtain ⟨h1, h2⟩ := hb b (List.mem_cons_self _ _)
    rw [List.foldlM_cons, verifyBucket_hits data ps b.1 b.2 h1 (Nat.le_of_lt h2) hall]
    exact ih (fun c hc => hb c (List.mem_cons_of_mem _ hc))

theorem workers_fill_perms (input : List α) (h2 : 2 ≤ input.length) (h20 : input.length ≤ 20) :
    ∃ r, ((List.range input.length).map (fun i => (i, i))).foldlM
          (fun ps (b : Nat × Nat) => permWorker input ps b.1)
          (List.replicate input.length.factorial []) = .ok r ∧
      r.length = input.length.factorial ∧ ∀ p ∈ r, List.Perm p input := by
  obtain ⟨r, hr, hrl, _, hrin⟩ := workers_spec input h2 h20 input.length (Nat.le_refl _)
    (List.replicate input.length.factorial []) (by simp)
  refine ⟨r, hr, hrl, ?_⟩
  intro p hp
  obtain ⟨x, hx⟩ := List.getElem?_of_mem hp
  have hxl : x < r.length := (List.getElem?_eq_some_iff.1 hx).1
  have hF : 0 < (input.length - 1).factorial := Nat.factorial_pos _
  have hfac : input.length.factorial = input.length * (input.length - 1).factorial := by
    obtain ⟨m, hm⟩ : ∃ m, input.length = m + 1 := ⟨input.length - 1, by omega⟩
    rw [hm, Nat.add_sub_cancel, Nat.factorial_succ]
  have hc : x / (input.length - 1).factorial < input.length := by
    apply Nat.div_lt_of_lt_mul
    rw [Nat.mul_comm, ← hfac, ← hrl]
    exact hxl
  obtain ⟨a, ha, hv⟩ := hrin _ _ hc (Nat.mod_lt x hF)
  rw [Nat.mul_comm, Nat.div_add_mod, hx] at hv
  have hcl : x / (input.length - 1).factorial < input.length := hc
  have hne : splice input (x / (input.length - 1).factorial) ≠ [] := by
    intro h
    have := splice_length input _ hcl
    rw [h] at this
    simp at this
    omega
  cases hq : (permutations (splice input (x / (input.length - 1).factorial)))[
      x % (input.length - 1).factorial]? with
  | none => rw [hq] at hv; simp at hv
  | some q =>
    rw [hq] at hv
    simp only [Option.map_some', Option.some.injEq] at hv
    subst hv
    have hqm := (mem_permutations _ q hne).1 (List.getElem?_mem hq)
    exact (hqm.cons a).trans (splice_perm input _ a ha)

theorem check_single [DecidableEq α] (a : α) (candidate : List α) :
    Check [a] candidate = .ok true := by
  have hf : factorial ((1 : Nat) : Int) = .ok 1 := rfl
  have hd : distribute 1 = .ok [(0, 0)] := rfl
  have hw : permWorker [a] (List.replicate 1 []) 0 = .ok [[]] := rfl
  have hv : verifyBucket candidate [[]] 0 0 true = .ok true := rfl
  unfold Check
  simp only [List.length_singleton, hf, bind, Except.bind, hd, List.foldlM_cons,
    List.foldlM_nil, hw, pure, Except.pure, hv]

theorem check_of_superpermutation [DecidableEq α] (input candidate : List α)
    (h1 : 1 ≤ input.length) (h20 : input.length ≤ 20)
    (hall : ∀ p, List.Perm p input → p <:+: candidate) :
    Check input candidate = .ok true := by
  rcases Nat.lt_or_ge input.length 2 with hlt | h2
  · obtain ⟨a, rfl⟩ := List.length_eq_one.1 (show input.length = 1 by omega)
    exact check_single a candidate
  · obtain ⟨r, hr, hrl, hperm⟩ := workers_fill_perms input h2 h20
    have hpos : 1 ≤ r.length := by
      rw [hrl]
      exact Nat.factorial_pos _
    have hhit : ∀ p ∈ r, lookupHit candidate p = true := by
      intro p hp
      have hpp := hperm p hp
      refine (lookupHit_iff candidate p).2 ⟨?_, hall p hpp⟩
      intro hnil
      have := hpp.length_eq
      rw [hnil] at this
      simp at this
      omega
    have hbk := distribute_eq r.length hpos
    have hbounds := distribute_bounds r.length hpos _ hbk
    unfold Check
    simp only [factorial_eq _ h20, distribute_small _ h1 (by omega), bind, Except.bind, hr, hbk]
    exact verify_all_hits candidate r _ hbounds hhit true

set_option maxRecDepth 100000 in
/-- C6, failing run: for the five pairwise distinct single-byte symbols `0x80 .. 0x84`
`Find` returns 153 runes `U+FFFD` as a string of 459 bytes, and `Check` looks the byte
orderings of the input up in it, finds none and returns false. For every input `s` of
`n` pairwise distinct bytes below `0x80`, `1 ≤ n ≤ 8`, `Find s` returns a string and
`Check` accepts it; at `n = 5`, where `Check` does look orderings up, it accepts
`Find "abcde"` and rejects a string of 153 letters `a`. -/
theorem check_find_high_bytes :
    Find [0x80, 0x81, 0x82, 0x83, 0x84]
      = .ok (List.replicate 153 [0xEF, 0xBF, 0xBD]).flatten ∧
    Check [0x80, 0x81, 0x82, 0x83, 0x84] (List.replicate 153 [0xEF, 0xBF, 0xBD]).flatten
      = .ok false ∧
    ([0x80, 0x81, 0x82, 0x83, 0x84] : List Nat).Nodup ∧
    (∃ out, Find [97, 98, 99, 100, 101] = .ok out ∧
      Check [97, 98, 99, 100, 101] out = .ok true) ∧
    Check [97, 98, 99, 100, 101] (List.replicate 153 97) = .ok false ∧
    (∀ s : List Nat, s.Nodup → (∀ b ∈ s, b < 0x80) → 1 ≤ s.length → s.length ≤ 8 →
      ∃ out, Find s = .ok out ∧ Check s out = .ok true) := by
  refine ⟨rfl, rfl, by decide, ⟨_, rfl, rfl⟩, rfl, ?_⟩
  intro s _ hascii h1 h8
  obtain ⟨out, hF, _, _, hall⟩ := find_contains_every_ordering s (by omega) hascii
  exact ⟨out, hF, check_of_superpermutation s out h1 (by omega) hall⟩

end CheckFind

/-! ## Machine integers -/

theorem superLength_mono {n m : Nat} (h : n ≤ m) : superLength n ≤ superLength m := by
  induction m with
  | zero =>
    have : n = 0 := by omega
    subst this
    exact Nat.le_refl _
  | succ m ih =>
    rcases Nat.eq_or_lt_of_le h with rfl | hlt
    · exact Nat.le_refl _
    · rw [superLength_succ]
      exact Nat.le_trans (ih (Nat.le_of_lt_succ hlt)) (Nat.le_add_right _ _)

theorem superLength_lt_two_pow (n : Nat) (h : n ≤ 20) : superLength n < 2 ^ 63 :=
  Nat.lt_of_le_of_lt (superLength_mono h) (by decide)

/-! ## `factorial` -/

theorem factorial_lt_two_pow (n : Nat) (h : n ≤ 20) : n.factorial < 2 ^ 63 :=
  Nat.lt_of_le_of_lt (Nat.factorial_le h) (by decide)

theorem factorial_above (a : Int) (h : 21 < a) : factorial a = .error (.overflowError 21) := by
  unfold factorial
  have hlen : ((factorialTable.length : Nat) : Int) = 21 := rfl
  rw [if_pos (by rw [hlen]; exact h)]
  rfl

theorem factorial_neg (a : Int) (h : a < 0) : factorial a = .error .indexOutOfRange := by
  unfold factorial
  have hlen : ((factorialTable.length : Nat) : Int) = 21 := rfl
  rw [if_neg (by rw [hlen]; omega)]
  unfold readAt
  rw [if_pos h]

/-- C11: for every integer `a` with `0 ≤ a ≤ 20`, `factorial a` returns exactly `a!`
(with `0! = 1`), and that value is below `2 ^ 63`. -/
theorem factorial_exact (a : Int) (h0 : 0 ≤ a) (h20 : a ≤ 20) :
    factorial a = .ok a.toNat.factorial ∧ a.toNat.factorial < 2 ^ 63 ∧
      Nat.factorial 0 = 1 := by
  obtain ⟨n, rfl⟩ := Int.eq_ofNat_of_zero_le h0
  have hn : n ≤ 20 := by omega
  exact ⟨by rw [Int.toNat_ofNat]; exact factorial_eq n hn,
    by rw [Int.toNat_ofNat]; exact factorial_lt_two_pow n hn, rfl⟩

theorem factorial_exact_witness :
    (0 : Int) ≤ 20 ∧ (20 : Int) ≤ 20 ∧
    (factorial 20 = .ok (20 : Int).toNat.factorial ∧ (20 : Int).toNat.factorial < 2 ^ 63 ∧
      Nat.factorial 0 = 1) :=
  ⟨by decide, by decide, factorial_exact 20 (by decide) (by decide)⟩

/-- C12, failing run: `factorial 21` passes the guard `a > len(f)`, because the table has
21 entries, and then indexes the table out of range; it does not raise the explicit
overflow failure. `factorial 20` succeeds and every `a > 21` raises the overflow failure. -/
theorem factorial_twenty_one :
    factorial 21 = .error .indexOutOfRange ∧
    factorial 21 ≠ .error (.overflowError 21) ∧
    factorial 20 = .ok 2432902008176640000 ∧
    ∀ a : Int, 21 < a → factorial a = .error (.overflowError 21) := by
  refine ⟨rfl, ?_, rfl, factorial_above⟩
  intro h
  have h2 : (Except.error Fault.indexOutOfRange : Except Fault Nat)
      = .error (.overflowError 21) := h
  injection h2 with h3
  exact Fault.noConfusion h3

/-! ## Failures of `Find` -/

section FindFailures

theorem find_error_of_factorial (value : List Nat) (e : Fault)
    (h : factorial (value.length : Int) = .error e) : Find value = .error e := by
  unfold Find findRunes
  simp only [h, bind, Except.bind]

theorem find_twenty_one (value : List Nat) (h : value.length = 21) :
    Find value = .error .indexOutOfRange := by
  apply find_error_of_factorial
  rw [h]
  rfl

theorem find_above (value : List Nat) (h : 21 < value.length) :
    Find value = .error (.overflowError 21) := by
  apply find_error_of_factorial
  exact factorial_above _ (by omega)

theorem find_ok (value : List Nat) (h : value.length ≤ 20) :
    ∃ runes, findRunes value = .ok runes ∧ Find value = .ok (encodeRunes runes) ∧
      runes.length = superLength value.length ∧ runes.reverse = runes := by
  obtain ⟨_, _, runes, _, _, _, _, hR, hlen, hm, _⟩ := findRunes_spec value h
  exact ⟨runes, hR, find_of_findRunes value runes hR, hlen, mirrored_reverse runes hm⟩

/-- C13, failing run: on an input of 21 symbols `Find` fails with the index panic of the
factorial table, not with the overflow failure of the guard. Inputs of 22 symbols or more
do raise the overflow failure and inputs of at most 20 symbols return a string. -/
theorem find_twenty_one_symbols :
    Find (List.replicate 21 97) = .error .indexOutOfRange ∧
    Find (List.replicate 21 97) ≠ .error (.overflowError 21) ∧
    (∀ value : List Nat, 21 < value.length → Find value = .error (.overflowError 21)) ∧
    (∀ value : List Nat, value.length ≤ 20 → ∃ out, Find value = .ok out) := by
  refine ⟨find_twenty_one _ (by simp), ?_, fun value h => find_above value h, ?_⟩
  · rw [find_twenty_one _ (by simp)]
    intro h
    injection h with h3
    exact Fault.noConfusion h3
  · intro value h
    obtain ⟨runes, _, hF, _⟩ := find_ok value h
    exact ⟨_, hF⟩

/-- C16, counterexample: `Find "ab"` is `"aba"`, of length `1! + 2! = 3`, and not `"abba"`. -/
theorem find_ab_ne_abba :
    Find [97, 98] = .ok [97, 98, 97] ∧ Find [97, 98] ≠ .ok [97, 98, 98, 97] := by
  refine ⟨rfl, ?_⟩
  intro h
  have h2 : (Except.ok [97, 98, 97] : Except Fault (List Nat))
      = .ok [97, 98, 98, 97] := h
  injection h2 with h3
  exact absurd h3 (by decide)

/-- C16, amended: `Find "ab"` equals `"aba"`. -/
theorem find_ab : Find [97, 98] = .ok [97, 98, 97] := rfl

/-- C20, failing run: on the two single-byte symbols `0x80`, `0x81` the returned string is
`ef bf bd ef bf bd ef bf bd`, whose reversal starts with `bd`: the rune slice is a
palindrome, its UTF-8 encoding is not. The rune slice equals its own reversal on every
input of at most 20 bytes, and on every input of at most 20 bytes below `0x80` the
returned string equals its own reversal. -/
theorem find_high_bytes_reversal :
    Find [0x80, 0x81]
      = .ok [0xEF, 0xBF, 0xBD, 0xEF, 0xBF, 0xBD, 0xEF, 0xBF, 0xBD] ∧
    ([0xEF, 0xBF, 0xBD, 0xEF, 0xBF, 0xBD, 0xEF, 0xBF, 0xBD] : List Nat).reverse
      ≠ [0xEF, 0xBF, 0xBD, 0xEF, 0xBF, 0xBD, 0xEF, 0xBF, 0xBD] ∧
    (∀ input : List Nat, input.length ≤ 20 →
      ∃ runes, findRunes input = .ok runes ∧ Find input = .ok (encodeRunes runes) ∧
        runes.reverse = runes) ∧
    (∀ input : List Nat, (∀ b ∈ input, b < 0x80) → input.length ≤ 20 →
      ∃ out, Find input = .ok out ∧ out.reverse = out) := by
  refine ⟨rfl, by decide, ?_, ?_⟩
  · intro input h20
    obtain ⟨runes, hR, hF, _, hrev⟩ := find_ok input h20
    exact ⟨runes, hR, hF, hrev⟩
  · intro input hascii h20
    obtain ⟨out, _, hF, _, hm, _⟩ := find_ascii_spec input h20 hascii
    exact ⟨out, hF, mirrored_reverse out hm⟩

end FindFailures

/-! ## `distribute` and `Check` at the small end -/

section SmallInputs
variable {α : Type}

/-- C15, failing run: `distribute 0` computes `bucketCount = 0` and then divides `count` by
it, so it fails with a division by zero before any bucket is launched or a handle is
returned. -/
theorem distribute_zero :
    distribute 0 = .error .divideByZero ∧ ¬ ∃ buckets, distribute 0 = .ok buckets := by
  refine ⟨rfl, ?_⟩
  rintro ⟨buckets, h⟩
  have h2 : (Except.error Fault.divideByZero : Except Fault (List (Nat × Nat)))
      = .ok buckets := h
  exact Except.noConfusion h2

theorem check_nil [DecidableEq α] (candidate : List α) :
    Check ([] : List α) candidate = .error .divideByZero := by
  have hf : factorial ((0 : Nat) : Int) = .ok 1 := rfl
  have hd : distribute 0 = .error .divideByZero := rfl
  unfold Check
  simp only [List.length_nil, hf, bind, Except.bind, hd]

/-- C14, failing run: on the empty input `Check` fails with the division by zero of
`distribute 0`, whatever the candidate; on an input of one symbol it returns `true`. -/
theorem check_empty_input :
    Check ([] : List Char) ['a'] = .error .divideByZero ∧
    (∀ candidate : List Char, Check ([] : List Char) candidate = .error .divideByZero) ∧
    (∀ (a : Char) (candidate : List Char), Check [a] candidate = .ok true) :=
  ⟨check_nil _, fun candidate => check_nil candidate,
    fun a candidate => check_single a candidate⟩

theorem verifyBucket_empty [DecidableEq α] (data : List α) (ps : List (List α))
    (start : Nat) (h : start ≤ ps.length) (status : Bool) :
    verifyBucket data ps start start status = .ok status := by
  unfold verifyBucket sliceRange
  have hc : (0 : Int) ≤ (start : Int) ∧ (start : Int) ≤ (start : Int) ∧
      (start : Int) ≤ (ps.length : Int) := by omega
  simp only [hc, and_self, if_true, bind, Except.bind, pure, Except.pure, Nat.sub_self,
    List.take_zero, List.foldl_nil]

theorem verify_single_index [DecidableEq α] (data : List α) (ps : List (List α))
    (buckets : List (Nat × Nat)) (hb : ∀ b ∈ buckets, b.1 = b.2 ∧ b.2 < ps.length)
    (status : Bool) :
    buckets.foldlM (fun status b => verifyBucket data ps b.1 b.2 status) status
      = .ok status := by
  induction buckets with
  | nil => rfl
  | cons b buckets ih =>
    obtain ⟨h1, h2⟩ := hb b (List.mem_cons_self _ _)
    rw [List.foldlM_cons, ← h1, verifyBucket_empty data ps b.1 (by omega)]
    exact ih (fun c hc => hb c (List.mem_cons_of_mem _ hc))

/-- C19: for every input of 1 to 4 symbols and every candidate, `Check` returns `true`:
the `n! ≤ 32` verification buckets are the single indices `(i, i)`, and the slice
`ps[i:i]` of each bucket is empty. -/
theorem check_small [DecidableEq α] (input candidate : List α) (h1 : 1 ≤ input.length)
    (h4 : input.length ≤ 4) :
    Check input candidate = .ok true ∧
    distribute input.length.factorial
      = .ok ((List.range input.length.factorial).map fun i => (i, i)) := by
  have hfac : input.length.factorial ≤ 24 := Nat.factorial_le h4
  have hpos : 1 ≤ input.length.factorial := Nat.factorial_pos _
  have hdist := distribute_small input.length.factorial hpos (by omega)
  refine ⟨?_, hdist⟩
  rcases Nat.lt_or_ge input.length 2 with hlt | h2
  · obtain ⟨a, rfl⟩ := List.length_eq_one.1 (show input.length = 1 by omega)
    exact check_single a candidate
  · obtain ⟨r, hr, hrl, _⟩ := workers_fill_perms input h2 (by omega)
    rw [← hrl] at hdist
    unfold Check
    simp only [factorial_eq _ (show input.length ≤ 20 by omega),
      distribute_small _ h1 (show input.length ≤ 32 by omega), bind, Except.bind, hr, hdist]
    apply verify_single_index
    intro b hb
    simp only [List.mem_map, List.mem_range] at hb
    obtain ⟨i, hi, rfl⟩ := hb
    exact ⟨rfl, hi⟩

theorem check_small_witness :
    1 ≤ ['a', 'b', 'c', 'd'].length ∧ ['a', 'b', 'c', 'd'].length ≤ 4 ∧
    (Check ['a', 'b', 'c', 'd'] ['z'] = .ok true ∧
      distribute ['a', 'b', 'c', 'd'].length.factorial
        = .ok ((List.range ['a', 'b', 'c', 'd'].length.factorial).map fun i => (i, i))) :=
  ⟨by decide, by decide, check_small ['a', 'b', 'c', 'd'] ['z'] (by decide) (by decide)⟩

end SmallInputs

/-! ## Every access of `Find` is in range -/

section FindRange
variable {α : Type}

theorem readAt_ok_bounds {β : Type} (xs : List β) (i : Int) (v : β)
    (h : readAt xs i = .ok v) : 0 ≤ i ∧ i < xs.length := by
  unfold readAt at h
  by_cases hneg : i < 0
  · rw [if_pos hneg] at h
    exact Except.noConfusion h
  · rw [if_neg hneg] at h
    by_cases hlt : i.toNat < xs.length
    · omega
    · rw [List.getElem?_eq_none (by omega)] at h
      exact Except.noConfusion h

theorem writeAt_ok_bounds {β : Type} (xs : List β) (i : Int) (v : β) (r : List β)
    (h : writeAt xs i v = .ok r) : 0 ≤ i ∧ i < xs.length ∧ r.length = xs.length := by
  unfold writeAt at h
  by_cases hc : 0 ≤ i ∧ i < xs.length
  · rw [if_pos hc] at h
    injection h with h
    subst h
    exact ⟨hc.1, hc.2, by simp⟩
  · rw [if_neg hc] at h
    exact Except.noConfusion h

theorem sum_take_add_le (l : List Nat) :
    ∀ (t inc : Nat), l[t]? = some inc → (l.take t).sum + inc ≤ l.sum := by
  induction l with
  | nil => intro t inc h; simp at h
  | cons a l ih =>
    intro t inc h
    cases t with
    | zero =>
      simp at h
      subst h
      simp
    | succ t =>
      simp at h
      have := ih t inc h
      simp only [List.take_succ_cons, List.sum_cons]
      omega

theorem shiftList_bounds (n : Nat) (t inc : Nat) (h : (shiftList n)[t]? = some inc) :
    inc ≤ n ∧ n + ((shiftList n).take t).sum + inc ≤ superLength n := by
  have hmem : inc ∈ shiftList n := List.getElem?_mem h
  have hle : inc ≤ n := by
    unfold shiftList at hmem
    rw [List.mem_map] at hmem
    obtain ⟨k, _, rfl⟩ := hmem
    exact (shiftCount_le n k).trans (Nat.sub_le _ _)
  refine ⟨hle, ?_⟩
  have hsum := sum_take_add_le (shiftList n) t inc h
  have hpos : 0 < n.factorial / 2 := by
    have hl : t < (shiftList n).length := (List.getElem?_eq_some_iff.1 h).1
    simp only [shiftList, List.length_map, List.length_range'] at hl
    omega
  have hn2 := half_factorial_pos n hpos
  have h1 := two_mul_sum_shiftList n (by omega)
  have h2 := superLength_ge n (by omega)
  omega

theorem walkShifts_cursor (n L : Nat) (ws : List Nat) :
    ∀ (cur : Nat) (out : List α) (c : Nat) (o : List α),
      walkShifts n L ws cur out = .ok (c, o) → c = cur + ws.sum := by
  induction ws with
  | nil =>
    intro cur out c o h
    have h2 : (Except.ok (cur, out) : Except Fault (Nat × List α)) = .ok (c, o) := h
    injection h2 with h3
    injection h3 with h4 _
    simp [h4]
  | cons w ws ih =>
    intro cur out c o h
    unfold walkShifts at h
    rw [List.foldlM_cons] at h
    cases hstep : copyShift n L cur w out with
    | error e =>
      simp only [hstep, bind, Except.bind] at h
      exact Except.noConfusion h
    | ok o1 =>
      simp only [hstep, bind, Except.bind, pure, Except.pure] at h
      have := ih (cur + w) o1 c o h
      rw [this, List.sum_cons, Nat.add_assoc]

theorem copy_indices_in_range (n L cur inc i : Nat) (hn : n ≤ cur)
    (hb : cur + inc ≤ L) (hi : i < inc) :
    (0 : Int) ≤ (cur : Int) + inc - i - 1 ∧ (cur : Int) + inc - i - 1 < L ∧
    (0 : Int) ≤ (L : Int) - cur - inc + i ∧ (L : Int) - cur - inc + i < L ∧
    (0 : Int) ≤ (cur : Int) - n + i ∧ (cur : Int) - n + i < L := by
  omega

theorem find_error_is_factorial (value : List Nat) (e : Fault)
    (h : Find value = .error e) :
    20 < value.length ∧ factorial (value.length : Int) = .error e := by
  rcases Nat.lt_or_ge 20 value.length with hgt | hle
  · refine ⟨hgt, ?_⟩
    rcases Nat.lt_or_ge 21 value.length with h22 | h21
    · rw [find_above value h22] at h
      injection h with h
      subst h
      exact factorial_above _ (by omega)
    · have h21e : value.length = 21 := by omega
      rw [find_twenty_one value h21e] at h
      injection h with h
      subst h
      rw [h21e]
      rfl
  · obtain ⟨runes, _, hF, _⟩ := find_ok value hle
    rw [hF] at h
    exact Except.noConfusion h

/-- C17: for every input of at most 20 bytes `Find` runs to completion, so every
bounds-checked access succeeds: the shift sequence is built, each shift entry `inc` is at
most `n`, and with the cursor `cur = n + sum of the earlier entries` the three output
indices `cur+inc-i-1`, `outlen-cur-inc+i` and `cur-n+i` of every `i < inc` lie in
`[0, outlen)`; the byte index `i` of every rune of the input and its mirror `outlen-i-1`
lie in `[0, outlen)` too. The rune slice has `outlen` entries and the returned string is
its encoding. Whenever `Find` fails, on any input, it is with the failure of
`factorial (len value)`. -/
theorem find_runs_in_range (value : List Nat) (h20 : value.length ≤ 20) :
    ∃ sequence runes,
      shiftSequence value.length (value.length.factorial / 2) = .ok sequence ∧
      sequence.length = value.length.factorial / 2 ∧
      outputLength value.length = .ok (superLength value.length) ∧
      (∀ t inc i, sequence[t]? = some inc → i < inc →
        inc ≤ value.length ∧
        value.length + (sequence.take t).sum + inc ≤ superLength value.length ∧
        (0 : Int) ≤ ((value.length + (sequence.take t).sum : Nat) : Int) + inc - i - 1 ∧
        ((value.length + (sequence.take t).sum : Nat) : Int) + inc - i - 1
          < superLength value.length ∧
        (0 : Int) ≤ (superLength value.length : Int)
          - ((value.length + (sequence.take t).sum : Nat) : Int) - inc + i ∧
        (superLength value.length : Int)
          - ((value.length + (sequence.take t).sum : Nat) : Int) - inc + i
          < superLength value.length ∧
        (0 : Int) ≤ ((value.length + (sequence.take t).sum : Nat) : Int) - value.length + i ∧
        ((value.length + (sequence.take t).sum : Nat) : Int) - value.length + i
          < superLength value.length) ∧
      (∀ p ∈ rangeRunes value, p.1 < superLength value.length ∧
        (0 : Int) ≤ (superLength value.length : Int) - p.1 - 1 ∧
        (superLength value.length : Int) - p.1 - 1 < superLength value.length) ∧
      findRunes value = .ok runes ∧ runes.length = superLength value.length ∧
      Find value = .ok (encodeRunes runes) ∧
      (∀ (other : List Nat) (e : Fault), Find other = .error e →
        factorial (other.length : Int) = .error e) := by
  obtain ⟨runes, hR, hF, hlen, _⟩ := find_ok value h20
  refine ⟨shiftList value.length, runes, shiftSequence_eq _ h20, ?_, outputLength_eq _ h20, ?_,
    ?_, hR, hlen, hF, ?_⟩
  · simp [shiftList]
  · intro t inc i h hi
    obtain ⟨h1, h2⟩ := shiftList_bounds value.length t inc h
    exact ⟨h1, h2, copy_indices_in_range value.length (superLength value.length)
      (value.length + ((shiftList value.length).take t).sum) inc i (Nat.le_add_right _ _)
      h2 hi⟩
  · intro p hp
    have h1 := rangeAux_index value 0 0 p hp
    have h2 := superLength_ge_self value.length
    omega
  · intro other e h
    exact (find_error_is_factorial other e h).2

theorem find_runs_in_range_witness :
    [97, 98, 99].length ≤ 20 ∧
    ∃ sequence runes,
      shiftSequence [97, 98, 99].length ([97, 98, 99].length.factorial / 2)
        = .ok sequence ∧
      sequence.length = [97, 98, 99].length.factorial / 2 ∧
      outputLength [97, 98, 99].length = .ok (superLength [97, 98, 99].length) ∧
      (∀ t inc i, sequence[t]? = some inc → i < inc →
        inc ≤ [97, 98, 99].length ∧
        [97, 98, 99].length + (sequence.take t).sum + inc
          ≤ superLength [97, 98, 99].length ∧
        (0 : Int) ≤ (([97, 98, 99].length + (sequence.take t).sum : Nat) : Int)
          + inc - i - 1 ∧
        (([97, 98, 99].length + (sequence.take t).sum : Nat) : Int) + inc - i - 1
          < superLength [97, 98, 99].length ∧
        (0 : Int) ≤ (superLength [97, 98, 99].length : Int)
          - (([97, 98, 99].length + (sequence.take t).sum : Nat) : Int) - inc + i ∧
        (superLength [97, 98, 99].length : Int)
          - (([97, 98, 99].length + (sequence.take t).sum : Nat) : Int) - inc + i
          < superLength [97, 98, 99].length ∧
        (0 : Int) ≤ (([97, 98, 99].length + (sequence.take t).sum : Nat) : Int)
          - [97, 98, 99].length + i ∧
        (([97, 98, 99].length + (sequence.take t).sum : Nat) : Int)
          - [97, 98, 99].length + i < superLength [97, 98, 99].length) ∧
      (∀ p ∈ rangeRunes [97, 98, 99], p.1 < superLength [97, 98, 99].length ∧
        (0 : Int) ≤ (superLength [97, 98, 99].length : Int) - p.1 - 1 ∧
        (superLength [97, 98, 99].length : Int) - p.1 - 1
          < superLength [97, 98, 99].length) ∧
      findRunes [97, 98, 99] = .ok runes ∧
      runes.length = superLength [97, 98, 99].length ∧
      Find [97, 98, 99] = .ok (encodeRunes runes) ∧
      (∀ (other : List Nat) (e : Fault), Find other = .error e →
        factorial (other.length : Int) = .error e) :=
  ⟨by decide, find_runs_in_range [97, 98, 99] (by decide)⟩

end FindRange

/-! ## The permutation array of `Check` -/

section CheckArray
variable {α : Type}

theorem getElem?_flatMap_block {β γ : Type} (f : β → List γ) (k : Nat) (l : List β) :
    (∀ x ∈ l, (f x).length = k) → ∀ (c i : Nat), i < k →
      (l.flatMap f)[c * k + i]? = (l[c]?).bind (fun x => (f x)[i]?) := by
  induction l with
  | nil => intro _ c i _; simp
  | cons x l ih =>
    intro h c i hi
    have hx : (f x).length = k := h x (List.mem_cons_self _ _)
    rw [List.flatMap_cons]
    cases c with
    | zero =>
      rw [Nat.zero_mul, Nat.zero_add, List.getElem?_append_left (by rw [hx]; exact hi)]
      simp
    | succ c =>
      have hge : (f x).length ≤ (c + 1) * k + i := by
        rw [hx, Nat.succ_mul]
        omega
      rw [List.getElem?_append_right hge, hx]
      have hsub : (c + 1) * k + i - k = c * k + i := by
        rw [Nat.succ_mul]
        omega
      rw [hsub, ih (fun y hy => h y (List.mem_cons_of_mem _ hy)) c i hi]
      simp

theorem permutations_block (input : List α) (h2 : 2 ≤ input.length) (c i : Nat)
    (hc : c < input.length) (hi : i < (input.length - 1).factorial) (a : α)
    (ha : input[c]? = some a) :
    (permutations input)[c * (input.length - 1).factorial + i]?
      = (permutations (splice input c))[i]?.map (a :: ·) := by
  obtain ⟨m, hm⟩ : ∃ m, input.length = m + 1 := ⟨input.length - 1, by omega⟩
  have hblock : ∀ x ∈ input.enum,
      ((fun ic : Nat × α => (permutationsAux m (splice input ic.1)).map (ic.2 :: ·)) x).length
        = (input.length - 1).factorial := by
    rintro ⟨j, b⟩ hj
    rw [List.mk_mem_enum_iff_getElem?] at hj
    have hjl : j < input.length := (List.getElem?_eq_some_iff.1 hj).1
    have hsl := splice_length input j hjl
    have hne : splice input j ≠ [] := by
      intro h
      rw [h] at hsl
      simp at hsl
      omega
    have hlen := length_permutations (splice input j) hne
    unfold permutations at hlen
    rw [hsl, hm, Nat.add_sub_cancel] at hlen
    simp only [List.length_map]
    rw [hlen, hm, Nat.add_sub_cancel]
  have hsplice : permutations (splice input c) = permutationsAux m (splice input c) := by
    unfold permutations
    rw [splice_length input c hc, hm, Nat.add_sub_cancel]
  have hperm : permutations input = input.enum.flatMap
      (fun ic : Nat × α => (permutationsAux m (splice input ic.1)).map (ic.2 :: ·)) := by
    unfold permutations
    rw [hm, permutationsAux_succ m input (by omega)]
  rw [hperm, getElem?_flatMap_block _ _ _ hblock c i hi, List.getElem?_enum, ha, hsplice]
  simp

theorem block_unique (n F x : Nat) (hF : 0 < F) (hx : x < n * F) :
    ∃! c, c < n ∧ c * F ≤ x ∧ x < (c + 1) * F := by
  refine ⟨x / F, ⟨?_, ?_, ?_⟩, ?_⟩
  · exact Nat.div_lt_of_lt_mul (by rw [Nat.mul_comm]; exact hx)
  · exact Nat.div_mul_le_self x F
  · rw [Nat.succ_mul]
    have := Nat.div_add_mod x F
    have h2 := Nat.mod_lt x hF
    rw [Nat.mul_comm] at this
    omega
  · rintro c ⟨_, h1, h2⟩
    apply Nat.le_antisymm
    · exact (Nat.le_div_iff_mul_le hF).2 h1
    · exact Nat.le_of_lt_succ ((Nat.div_lt_iff_lt_mul hF).2 h2)

/-- C18: for an input of `n` symbols, `2 ≤ n ≤ 20`, the array that the workers of `Check`
fill is element for element `permutations input`. The worker for leading position `c`
changes no slot outside `c*(n-1)! .. (c+1)*(n-1)! - 1` and stores the entries of
`permutations input` inside it, and every slot below `n!` lies in the range of exactly one
worker. -/
theorem check_fills_permutations (input : List α) (h2 : 2 ≤ input.length)
    (h20 : input.length ≤ 20) :
    ∃ workers ps,
      factorial (input.length : Int) = .ok input.length.factorial ∧
      distribute input.length = .ok workers ∧
      workers.map Prod.fst = List.range input.length ∧
      workers.foldlM (fun ps b => permWorker input ps b.1)
        (List.replicate input.length.factorial []) = .ok ps ∧
      ps = permutations input ∧
      (∀ (c : Nat) (q : List (List α)), c < input.length →
        q.length = input.length.factorial →
        ∃ r, permWorker input q c = .ok r ∧ r.length = input.length.factorial ∧
          (∀ x, x < c * (input.length - 1).factorial ∨
              (c + 1) * (input.length - 1).factorial ≤ x → r[x]? = q[x]?) ∧
          (∀ x, c * (input.length - 1).factorial ≤ x →
              x < (c + 1) * (input.length - 1).factorial →
            r[x]? = (permutations input)[x]?)) ∧
      (∀ x, x < input.length.factorial →
        ∃! c, c < input.length ∧ c * (input.length - 1).factorial ≤ x ∧
          x < (c + 1) * (input.length - 1).factorial) := by
  have hF : 0 < (input.length - 1).factorial := Nat.factorial_pos _
  have hfac : input.length.factorial = input.length * (input.length - 1).factorial := by
    obtain ⟨m, hm⟩ : ∃ m, input.length = m + 1 := ⟨input.length - 1, by omega⟩
    rw [hm, Nat.add_sub_cancel, Nat.factorial_succ]
  have hne : input ≠ [] := by
    intro h
    rw [h] at h2
    simp at h2
  obtain ⟨ps, hps, hpsl, _, hpsin⟩ := workers_spec input h2 h20 input.length (Nat.le_refl _)
    (List.replicate input.length.factorial []) (by simp)
  refine ⟨(List.range input.length).map (fun i => (i, i)), ps, factorial_eq _ h20,
    distribute_small _ (by omega) (by omega), ?_, hps, ?_, ?_, ?_⟩
  · rw [List.map_map]
    exact List.map_id'' (fun _ => rfl) _
  · apply List.ext_getElem?
    intro x
    rcases Nat.lt_or_ge x input.length.factorial with hx | hx
    · have hc : x / (input.length - 1).factorial < input.length :=
        Nat.div_lt_of_lt_mul (by rw [Nat.mul_comm, ← hfac]; exact hx)
      have hi := Nat.mod_lt x hF
      obtain ⟨a, ha, hv⟩ := hpsin _ _ hc hi
      have hb := permutations_block input h2 _ _ hc hi a ha
      rw [Nat.mul_comm, Nat.div_add_mod] at hv hb
      rw [hv, hb]
    · rw [List.getElem?_eq_none (by omega),
        List.getElem?_eq_none (by rw [length_permutations input hne]; exact hx)]
  · intro c q hc hq
    obtain ⟨r, hr, hrl, hrout, hrin⟩ := permWorker_spec input h2 h20 c hc q hq
    refine ⟨r, hr, hrl, ?_, ?_⟩
    · intro x hx
      rw [Nat.succ_mul] at hx
      exact hrout x hx
    · intro x hx1 hx2
      rw [Nat.succ_mul] at hx2
      obtain ⟨a, ha, hv⟩ := hrin (x - c * (input.length - 1).factorial) (by omega)
      have hb := permutations_block input h2 c (x - c * (input.length - 1).factorial) hc
        (by omega) a ha
      rw [Nat.add_sub_cancel' hx1] at hv hb
      rw [hv, hb]
  · intro x hx
    exact block_unique input.length _ x hF (by rw [← hfac]; exact hx)

theorem check_fills_permutations_witness :
    2 ≤ ['a', 'b', 'c'].length ∧ ['a', 'b', 'c'].length ≤ 20 ∧
    ∃ workers ps,
      factorial (['a', 'b', 'c'].length : Int) = .ok ['a', 'b', 'c'].length.factorial ∧
      distribute ['a', 'b', 'c'].length = .ok workers ∧
      workers.map Prod.fst = List.range ['a', 'b', 'c'].length ∧
      workers.foldlM (fun ps b => permWorker ['a', 'b', 'c'] ps b.1)
        (List.replicate ['a', 'b', 'c'].length.factorial []) = .ok ps ∧
      ps = permutations ['a', 'b', 'c'] ∧
      (∀ (c : Nat) (q : List (List Char)), c < ['a', 'b', 'c'].length →
        q.length = ['a', 'b', 'c'].length.factorial →
        ∃ r, permWorker ['a', 'b', 'c'] q c = .ok r ∧
          r.length = ['a', 'b', 'c'].length.factorial ∧
          (∀ x, x < c * (['a', 'b', 'c'].length - 1).factorial ∨
              (c + 1) * (['a', 'b', 'c'].length - 1).factorial ≤ x → r[x]? = q[x]?) ∧
          (∀ x, c * (['a', 'b', 'c'].length - 1).factorial ≤ x →
              x < (c + 1) * (['a', 'b', 'c'].length - 1).factorial →
            r[x]? = (permutations ['a', 'b', 'c'])[x]?)) ∧
      (∀ x, x < ['a', 'b', 'c'].length.factorial →
        ∃! c, c < ['a', 'b', 'c'].length ∧ c * (['a', 'b', 'c'].length - 1).factorial ≤ x ∧
          x < (c + 1) * (['a', 'b', 'c'].length - 1).factorial) :=
  ⟨by decide, by decide, check_fills_permutations ['a', 'b', 'c'] (by decide) (by decide)⟩

end CheckArray

end Superpermutations
